import Mathlib

/-!
Verification of the crossword CSP solving engine in `generate.py`
(class `CrosswordCreator`).

The engine's mutable state is embedded explicitly:
* `Domains` is the `self.domains` dict, an association list from variables to
  word lists (Python set iteration order is modelled by list order);
* `Assignment` is the `assignment` dict threaded through `backtrack`; since
  Python mutates one shared dict across the recursion, every embedded search
  function returns the final state of that dict alongside its result;
* words are lists of characters, `w.getD i _` embedding the indexing `w[i]`
  (all indexing reached from `solve` is in bounds; a second, `Option`-valued
  embedding `solveC` below models out-of-range indexing as a crash).

Loops that Python runs as `while`/recursion are given explicit fuel; the fuel
chosen in `ac3` and `solve` is generous enough for every run examined by a
theorem below, and every general theorem is stated so that the fuel-exhausted
sentinel `(false, _)` cannot make it spuriously true.

The classes `Variable` and `Crossword` come from `crossword.py`, which is not
part of the sources; they are modelled from the spec (§3, §6).
-/

namespace AC

/-- Modelled from the spec: a Slot/Variable from `crossword.py` (missing from
the sources) is identified by starting row, column, direction and length, with
value equality. -/
structure Variable where
  i : Nat
  j : Nat
  down : Bool
  length : Nat
deriving DecidableEq, Repr

/-- A vocabulary word; Python strings are embedded as lists of characters. -/
abbrev Word := List Char

/-- The `assignment` dict of `backtrack`: insertion-ordered key/value pairs. -/
abbrev Assignment := List (Variable × Word)

/-- The `self.domains` dict: insertion-ordered variable/word-list pairs. -/
abbrev Domains := List (Variable × List Word)

/-- Modelled from the spec: the Constraint Model from `crossword.py` (missing
from the sources) exposes the full slot list and, for any two slots, either an
overlap (pair of character offsets) or none. -/
structure Crossword where
  vars : List Variable  -- the `variables` attribute (Lean reserves that identifier)
  overlaps : Variable → Variable → Option (Nat × Nat)

/-- Modelled from the spec: the derived neighbor relation of the Constraint
Model — the slots sharing a defined overlap with `v` (Python returns a set;
its iteration order is modelled as the `variables` order). -/
def neighbors (cw : Crossword) (v : Variable) : List Variable :=
  cw.vars.filter (fun n => decide (¬ n = v) && (cw.overlaps v n).isSome)

/-- Dict read `doms[v]` (first matching key; total, `[]` if absent). -/
def domLookup (doms : Domains) (v : Variable) : List Word :=
  match doms with
  | [] => []
  | (k, ws) :: rest => if k = v then ws else domLookup rest v

/-- Dict write `doms[v] = ws` on an existing key (updates the first matching
entry in place, keeping its position, like a Python dict). -/
def domSet (doms : Domains) (v : Variable) (ws : List Word) : Domains :=
  match doms with
  | [] => []
  | (k, old) :: rest => if k = v then (k, ws) :: rest else (k, old) :: domSet rest v ws

/-- Dict read `assignment[v]` as an option. -/
def assocLookup (a : Assignment) (v : Variable) : Option Word :=
  match a with
  | [] => none
  | (k, w) :: rest => if k = v then some w else assocLookup rest v

/-- Dict write `assignment[v] = w`: updates an existing key in place, else
appends at the end (Python dict insertion order). -/
def assocSet (a : Assignment) (v : Variable) (w : Word) : Assignment :=
  match a with
  | [] => [(v, w)]
  | (k, old) :: rest => if k = v then (k, w) :: rest else (k, old) :: assocSet rest v w

/-- Dict delete `del assignment[v]`. -/
def assocDelete (a : Assignment) (v : Variable) : Assignment :=
  a.filter (fun p => decide (¬ p.1 = v))

/-- Membership test `v in assignment`. -/
def hasKey (a : Assignment) (v : Variable) : Bool :=
  a.any (fun p => decide (p.1 = v))

/-- The keys of an association list (assignment or domain store). -/
def keysOf {β : Type} (l : List (Variable × β)) : List Variable :=
  l.map Prod.fst

/-- Insert `x` into a sorted list, after every element strictly below it —
so elements comparing equal keep their original relative order. -/
def insertIntoSorted {α : Type} (lt : α → α → Bool) (x : α) : List α → List α
  | [] => [x]
  | y :: rest => if lt y x then y :: insertIntoSorted lt x rest else x :: y :: rest

/-- Python's `list.sort` is a *stable* ascending sort; a stable sort is a
unique function of the list and the key, so it is embedded as a stable
insertion sort (structurally recursive, hence computable by the kernel). -/
def stableSort {α : Type} (lt : α → α → Bool) : List α → List α
  | [] => []
  | x :: rest => insertIntoSorted lt x (stableSort lt rest)

/-- `CrosswordCreator.__init__`: every variable's domain starts as a copy of
the vocabulary. -/
def initialDomains (cw : Crossword) (vocab : List Word) : Domains :=
  cw.vars.map (fun v => (v, vocab))

/-- `CrosswordCreator.enforce_node_consistency`: remove from each domain the
words whose length differs from the variable's length. -/
def enforce_node_consistency (doms : Domains) : Domains :=
  doms.map (fun p => (p.1, p.2.filter (fun w => decide (w.length = p.1.length))))

/-- The inner loop of `CrosswordCreator.revise`: whether some word of `y`'s
domain matches `wx` at the overlap offsets. -/
def supported (dy : List Word) (ox oy : Nat) (wx : Word) : Bool :=
  dy.any (fun wy => decide (wx.getD ox ' ' = wy.getD oy ' '))

/-- `CrosswordCreator.revise`: with no overlap, report no revision; otherwise
remove from `x`'s domain every word with no matching word in `y`'s current
domain, reporting whether anything was removed.  (Python iterates over copies
of both domains taken before any removal, so the kept words are exactly a
filter of the old domain of `x` against the old domain of `y`.) -/
def revise (cw : Crossword) (doms : Domains) (x y : Variable) : Bool × Domains :=
  match cw.overlaps x y with
  | none => (false, doms)
  | some (ox, oy) =>
    let dx := domLookup doms x
    let newDx := dx.filter (supported (domLookup doms y) ox oy)
    (decide (¬ newDx.length = dx.length), domSet doms x newDx)

/-- The initial worklist used by `ac3` when no seed is supplied: all ordered
(variable, neighbor) pairs, in domain-dict order. -/
def defaultArcs (cw : Crossword) : List (Variable × Variable) :=
  (cw.vars.map (fun v => (neighbors cw v).map (fun n => (v, n)))).flatten

/-- Total number of words across all domains (used to size the fuel of the
`ac3` worklist loop). -/
def totalDomSize (cw : Crossword) (doms : Domains) : Nat :=
  (cw.vars.map (fun v => (domLookup doms v).length)).sum

/-- The `while arcs:` loop of `CrosswordCreator.ac3`: pop the head of the
worklist (FIFO), revise it; if the revision changed `x`'s domain, fail when
that domain became empty, otherwise append `(n, x)` for every neighbor `n` of
`x` other than `y`.  Runs on explicit fuel; exhausted fuel yields the sentinel
`(false, doms)`. -/
def ac3Loop (cw : Crossword) : Nat → Domains → List (Variable × Variable) → Bool × Domains
  | 0, doms, _ => (false, doms)
  | _ + 1, doms, [] => (true, doms)
  | fuel + 1, doms, (x, y) :: rest =>
    let r := revise cw doms x y
    if r.1 then
      if domLookup r.2 x = [] then (false, r.2)
      else
        ac3Loop cw fuel r.2
          (rest ++ ((neighbors cw x).filter (fun n => decide (¬ n = y))).map (fun n => (n, x)))
    else ac3Loop cw fuel r.2 rest

/-- Fuel given to `ac3Loop`; ample for every concrete run examined below. -/
def ac3Fuel (cw : Crossword) (doms : Domains) (worklist : List (Variable × Variable)) : Nat :=
  totalDomSize cw doms + worklist.length + 1

/-- `CrosswordCreator.ac3`: Python's `if not arcs:` treats both `None` and the
empty list as "use the default worklist of all arcs". -/
def ac3 (cw : Crossword) (doms : Domains) (arcs : Option (List (Variable × Variable))) :
    Bool × Domains :=
  let worklist :=
    match arcs with
    | some (p :: rest) => p :: rest
    | _ => defaultArcs cw
  ac3Loop cw (ac3Fuel cw doms worklist) doms worklist

/-- `CrosswordCreator.assignment_complete`: compares the number of assigned
keys with the number of variables. -/
def assignment_complete (cw : Crossword) (a : Assignment) : Bool :=
  decide (a.length = cw.vars.length)

/-- One neighbor test of `CrosswordCreator.consistent`: an assigned neighbor
whose word disagrees with `w` at the overlap offsets (an unassigned neighbor,
or — unreachably, since neighbors always share an overlap — a missing
overlap, reports no conflict).  The total `getD` indexing here is exact only
when the overlap offsets are positions inside both words, which holds in
every state the solver itself reaches; over arbitrary assignments the source
can instead raise an IndexError at `neighbor_value[overlap[1]]`, which the
crash-aware `neighborConflictC` below captures exactly. -/
def conflictFlag (cw : Crossword) (a : Assignment) (v : Variable) (w : Word)
    (n : Variable) : Bool :=
  match assocLookup a n with
  | some nw =>
    match cw.overlaps v n with
    | some (o1, o2) => decide (¬ nw.getD o2 ' ' = w.getD o1 ' ')
    | none => false
  | none => false

/-- The loop body of `CrosswordCreator.consistent`: walk the assignment items
in insertion order, tracking the set of already used words; fail on a reused
word, a wrong-length word, or a disagreement with an assigned neighbor. -/
def consistentAux (cw : Crossword) (a : Assignment) :
    List (Variable × Word) → List Word → Bool
  | [], _ => true
  | (v, w) :: rest, used =>
    if w ∈ used then false
    else if ¬ w.length = v.length then false
    else if (neighbors cw v).any (conflictFlag cw a v w) then false
    else consistentAux cw a rest (w :: used)

/-- `CrosswordCreator.consistent`. -/
def consistent (cw : Crossword) (a : Assignment) : Bool :=
  consistentAux cw a a []

/-- Python's `value2 not in assignment.keys()` in `order_domain_values`
compares a candidate word against the dict's keys, which are `Variable`
objects; equality between a variable and a word is always false in Python, so
the membership test never succeeds. -/
def varEqWord (_v : Variable) (_w : Word) : Bool := false

/-- The test `value2 in assignment.keys()` as executed by Python. -/
def wordIsAssignmentKey (a : Assignment) (w : Word) : Bool :=
  a.any (fun p => varEqWord p.1 w)

/-- The counter computed by `CrosswordCreator.order_domain_values` for one
candidate word: over every neighbor of `var`, the number of words in the
neighbor's current domain that conflict at the overlap and are not keys of the
assignment (the latter test is never true, see `varEqWord`). -/
def elimCount (cw : Crossword) (doms : Domains) (a : Assignment) (var : Variable)
    (value : Word) : Nat :=
  ((neighbors cw var).map (fun n =>
    match cw.overlaps var n with
    | some (i0, i1) =>
      ((domLookup doms n).filter (fun v2 =>
        decide (¬ value.getD i0 ' ' = v2.getD i1 ' ') && !(wordIsAssignmentKey a v2))).length
    | none => 0)).sum

/-- Strict comparison on the counters of `order_domain_values` (Python sorts
ascending by `x[1]`). -/
def odvLt (p q : Word × Nat) : Bool :=
  decide (p.2 < q.2)

/-- `CrosswordCreator.order_domain_values`: pair each domain word with its
counter and stable-sort ascending by the counter (Python `list.sort`). -/
def order_domain_values (cw : Crossword) (doms : Domains) (a : Assignment)
    (var : Variable) : List Word :=
  let pairs := (domLookup doms var).map (fun v => (v, elimCount cw doms a var v))
  (stableSort odvLt pairs).map Prod.fst

/-- Strict lexicographic comparison on the key
`(len(domains[var]), -len(neighbors(var)))` used by
`select_unassigned_variable` (Python sorts ascending by that tuple). -/
def selectLt (cw : Crossword) (doms : Domains) (v1 v2 : Variable) : Bool :=
  decide ((domLookup doms v1).length < (domLookup doms v2).length) ||
  (decide ((domLookup doms v1).length = (domLookup doms v2).length) &&
   decide ((neighbors cw v2).length < (neighbors cw v1).length))

/-- `CrosswordCreator.select_unassigned_variable`: stable-sort the unassigned
variables by (domain size, -degree) and take the first, `none` if all are
assigned. -/
def select_unassigned_variable (cw : Crossword) (doms : Domains) (a : Assignment) :
    Option Variable :=
  match stableSort (selectLt cw doms) (cw.vars.filter (fun v => !(hasKey a v))) with
  | [] => none
  | v :: _ => some v

/-- The `for value in self.order_domain_values(...)` loop of
`CrosswordCreator.backtrack`, with the recursive call abstracted as `recur`.
Mirrors the source exactly: the slot's entry is deleted only when the enlarged
assignment is *inconsistent*; after a consistent candidate whose inference or
recursion failed, the entry is left in place (the next candidate overwrites
it, and it survives when the loop ends).  Both the assignment dict and the
domains dict are threaded through, since Python mutates them in place. -/
def tryValues (cw : Crossword) (recur : Domains → Assignment → Bool × Assignment × Domains)
    (var : Variable) : Domains → Assignment → List Word → Bool × Assignment × Domains
  | doms, a, [] => (false, a, doms)
  | doms, a, value :: rest =>
    let a1 := assocSet a var value
    if consistent cw a1 then
      let seeded := (neighbors cw var).map (fun n => (n, var))
      let inf := ac3 cw doms (some seeded)
      if inf.1 then
        let res := recur inf.2 a1
        if res.1 then res
        else tryValues cw recur var res.2.2 res.2.1 rest
      else tryValues cw recur var inf.2 a1 rest
    else tryValues cw recur var doms (assocDelete a1 var) rest

/-- `CrosswordCreator.backtrack` on explicit fuel (`solve` passes enough fuel
for the recursion depth, which is bounded by the number of variables).
Returns `(success, assignment-dict-state, domains-dict-state)`; Python returns
the shared dict itself on success and `None` on failure, while mutating both
dicts in place either way. -/
def backtrackF (cw : Crossword) : Nat → Domains → Assignment → Bool × Assignment × Domains
  | 0, doms, a => (false, a, doms)
  | fuel + 1, doms, a =>
    if assignment_complete cw a then (true, a, doms)
    else
      match select_unassigned_variable cw doms a with
      | none => (true, a, doms)
      | some var =>
        tryValues cw (fun d b => backtrackF cw fuel d b) var doms a
          (order_domain_values cw doms a var)

/-- `CrosswordCreator.solve`: node consistency, full AC-3 (result discarded,
as in the source), then backtracking search from the empty assignment. -/
def solve (cw : Crossword) (vocab : List Word) : Option Assignment :=
  let d0 := enforce_node_consistency (initialDomains cw vocab)
  let afterAC := ac3 cw d0 none
  let res := backtrackF cw (cw.vars.length + 1) afterAC.2 []
  if res.1 then some res.2.1 else none

/-!
Specification-side predicates, written from the spec's words, to be compared
with the behaviour of the embedded code.
-/

/-- Spec §4.3/§8: the ordered pair `(x, y)` is arc-consistent in `doms` —
every word in x's domain has at least one compatible word in y's domain
(trivially true when no overlap is defined). -/
def arcConsistent (cw : Crossword) (doms : Domains) (x y : Variable) : Prop :=
  match cw.overlaps x y with
  | some (ox, oy) =>
    ∀ wx ∈ domLookup doms x, ∃ wy ∈ domLookup doms y, wx.getD ox ' ' = wy.getD oy ' '
  | none => True

/-- Spec §4.4: an assignment free of the three violations — no repeated word,
no wrong-length word, and agreement at the overlap offsets for every assigned
pair of neighboring slots. -/
def specConsistentAssignment (cw : Crossword) (a : Assignment) : Prop :=
  (a.map Prod.snd).Nodup ∧
  (∀ p ∈ a, (p.2 : Word).length = p.1.length) ∧
  (∀ p ∈ a, ∀ n ∈ neighbors cw p.1, ∀ nw, assocLookup a n = some nw →
    ∀ o1 o2, cw.overlaps p.1 n = some (o1, o2) →
      (p.2 : Word).getD o1 ' ' = nw.getD o2 ' ')

/-- Spec §7: a Solved outcome — one word for every slot, and the assignment
satisfies all constraints. -/
def specSolvedOutcome (cw : Crossword) (a : Assignment) : Prop :=
  (∀ v ∈ cw.vars, ∃ w, assocLookup a v = some w) ∧ specConsistentAssignment cw a

/-- Spec §4.5 (least-constraining-value): the number of values a candidate
word would eliminate from the domains of the *not yet assigned* neighbors
only. -/
def specElimCount (cw : Crossword) (doms : Domains) (a : Assignment) (var : Variable)
    (value : Word) : Nat :=
  ((neighbors cw var).map (fun n =>
    if hasKey a n then 0
    else
      match cw.overlaps var n with
      | some (i0, i1) =>
        ((domLookup doms n).filter (fun v2 =>
          decide (¬ value.getD i0 ' ' = v2.getD i1 ' '))).length
      | none => 0)).sum

/-- Model invariant (spec §3): the overlap relation is symmetric — decidable
form for one ordered pair. -/
def overlapsSymAt (cw : Crossword) (x y : Variable) : Bool :=
  match cw.overlaps x y with
  | some (ox, oy) => decide (cw.overlaps y x = some (oy, ox))
  | none => true

/-- Model invariant (spec §3): overlap offsets are positions inside the two
slots — decidable form for one ordered pair. -/
def overlapBoundsAt (cw : Crossword) (x y : Variable) : Bool :=
  match cw.overlaps x y with
  | some (ox, oy) => decide (ox < x.length) && decide (oy < y.length)
  | none => true

/-- Every word stored in a domain has its variable's length (spec §3 Domain
Store invariant; established by node consistency). -/
def domsWF (doms : Domains) : Prop :=
  ∀ p ∈ doms, ∀ w ∈ (p.2 : List Word), w.length = (p.1 : Variable).length

/-- Every value stored in an assignment has its variable's length. -/
def assignWF (a : Assignment) : Prop :=
  ∀ p ∈ a, (p.2 : Word).length = (p.1 : Variable).length

/-- The structural invariant of the assignment dict during search: distinct
keys (it is a Python dict), all of them variables of the model. -/
def goodKeys (cw : Crossword) (a : Assignment) : Prop :=
  (keysOf a).Nodup ∧ ∀ k ∈ keysOf a, k ∈ cw.vars

/-!
Crash-aware embedding for the safety claim: every string indexing `w[i]` is
embedded as `w.get? i`, and a `none` result anywhere models a Python
exception (an `IndexError`, or a `TypeError` on subscripting `None`) escaping
the operation.  Apart from making indexing fallible, the functions below are
the same translations as the total embedding above, and they preserve
Python's evaluation order, so a crash is reported exactly when Python would
raise.
-/

/-- The inner loop of `revise` (`for node2 in domains_y`): Python evaluates
`node[overlap[0]] == node2[overlap[1]]` at every iteration and never breaks,
so both indexings must be in range for every word of y's domain (and none is
evaluated when the domain is empty). -/
def checkWordC (ox oy : Nat) (wx : Word) : List Word → Option Bool
  | [] => some false
  | wy :: rest =>
    match wx.get? ox, wy.get? oy with
    | some c, some c2 =>
      match checkWordC ox oy wx rest with
      | none => none
      | some found => some (found || decide (c = c2))
    | _, _ => none

/-- The outer loop of `revise` (`for node in domains_x`). -/
def filterDomC (dy : List Word) (ox oy : Nat) : List Word → Option (List Word)
  | [] => some []
  | wx :: rest =>
    match checkWordC ox oy wx dy with
    | none => none
    | some found =>
      match filterDomC dy ox oy rest with
      | none => none
      | some kept => some (if found then wx :: kept else kept)

/-- `CrosswordCreator.revise`, crash-aware. -/
def reviseC (cw : Crossword) (doms : Domains) (x y : Variable) : Option (Bool × Domains) :=
  match cw.overlaps x y with
  | none => some (false, doms)
  | some (ox, oy) =>
    match filterDomC (domLookup doms y) ox oy (domLookup doms x) with
    | none => none
    | some newDx =>
      some (decide (¬ newDx.length = (domLookup doms x).length), domSet doms x newDx)

/-- The `while arcs:` loop of `CrosswordCreator.ac3`, crash-aware. -/
def ac3LoopC (cw : Crossword) : Nat → Domains → List (Variable × Variable) →
    Option (Bool × Domains)
  | 0, doms, _ => some (false, doms)
  | _ + 1, doms, [] => some (true, doms)
  | fuel + 1, doms, (x, y) :: rest =>
    match reviseC cw doms x y with
    | none => none
    | some r =>
      if r.1 then
        if domLookup r.2 x = [] then some (false, r.2)
        else
          ac3LoopC cw fuel r.2
            (rest ++ ((neighbors cw x).filter (fun n => decide (¬ n = y))).map (fun n => (n, x)))
      else ac3LoopC cw fuel r.2 rest

/-- `CrosswordCreator.ac3`, crash-aware. -/
def ac3C (cw : Crossword) (doms : Domains) (arcs : Option (List (Variable × Variable))) :
    Option (Bool × Domains) :=
  let worklist :=
    match arcs with
    | some (p :: rest) => p :: rest
    | _ => defaultArcs cw
  ac3LoopC cw (ac3Fuel cw doms worklist) doms worklist

/-- The neighbor loop of `CrosswordCreator.consistent`, crash-aware: Python
returns `False` at the first conflicting assigned neighbor, subscripts the
overlap offsets only for assigned neighbors, and would raise on a `None`
overlap (impossible for a neighbor). -/
def neighborConflictC (cw : Crossword) (a : Assignment) (v : Variable) (w : Word) :
    List Variable → Option Bool
  | [] => some false
  | n :: rest =>
    match assocLookup a n with
    | some nw =>
      match cw.overlaps v n with
      | some (o1, o2) =>
        match nw.get? o2, w.get? o1 with
        | some c2, some c1 =>
          if ¬ c2 = c1 then some true else neighborConflictC cw a v w rest
        | _, _ => none
      | none => none
    | none => neighborConflictC cw a v w rest

/-- The item loop of `CrosswordCreator.consistent`, crash-aware. -/
def consistentAuxC (cw : Crossword) (a : Assignment) :
    List (Variable × Word) → List Word → Option Bool
  | [], _ => some true
  | (v, w) :: rest, used =>
    if w ∈ used then some false
    else if ¬ w.length = v.length then some false
    else
      match neighborConflictC cw a v w (neighbors cw v) with
      | none => none
      | some true => some false
      | some false => consistentAuxC cw a rest (w :: used)

/-- `CrosswordCreator.consistent`, crash-aware. -/
def consistentC (cw : Crossword) (a : Assignment) : Option Bool :=
  consistentAuxC cw a a []

/-- The `for value2 in self.domains[neighbor]` loop of
`order_domain_values`, crash-aware (both indexings are evaluated at each
iteration). -/
def conflictCountC (a : Assignment) (value : Word) (i0 i1 : Nat) : List Word → Option Nat
  | [] => some 0
  | v2 :: rest =>
    match value.get? i0, v2.get? i1 with
    | some c1, some c2 =>
      match conflictCountC a value i0 i1 rest with
      | none => none
      | some k => some (if decide (¬ c1 = c2) && !(wordIsAssignmentKey a v2) then k + 1 else k)
    | _, _ => none

/-- The neighbor loop of `order_domain_values`, crash-aware; Python would
raise on a `None` overlap (impossible for a neighbor). -/
def neighborCountsC (cw : Crossword) (doms : Domains) (a : Assignment) (var : Variable)
    (value : Word) : List Variable → Option Nat
  | [] => some 0
  | n :: rest =>
    match cw.overlaps var n with
    | some (i0, i1) =>
      match conflictCountC a value i0 i1 (domLookup doms n) with
      | none => none
      | some k =>
        match neighborCountsC cw doms a var value rest with
        | none => none
        | some m => some (k + m)
    | none => none

/-- The candidate/counter pair list of `order_domain_values`, crash-aware. -/
def odvPairsC (cw : Crossword) (doms : Domains) (a : Assignment) (var : Variable) :
    List Word → Option (List (Word × Nat))
  | [] => some []
  | v :: rest =>
    match neighborCountsC cw doms a var v (neighbors cw var) with
    | none => none
    | some c =>
      match odvPairsC cw doms a var rest with
      | none => none
      | some ps => some ((v, c) :: ps)

/-- `CrosswordCreator.order_domain_values`, crash-aware. -/
def odvC (cw : Crossword) (doms : Domains) (a : Assignment) (var : Variable) :
    Option (List Word) :=
  match odvPairsC cw doms a var (domLookup doms var) with
  | none => none
  | some pairs => some ((stableSort odvLt pairs).map Prod.fst)

/-- The candidate loop of `CrosswordCreator.backtrack`, crash-aware. -/
def tryValuesC (cw : Crossword)
    (recur : Domains → Assignment → Option (Bool × Assignment × Domains)) (var : Variable) :
    Domains → Assignment → List Word → Option (Bool × Assignment × Domains)
  | doms, a, [] => some (false, a, doms)
  | doms, a, value :: rest =>
    let a1 := assocSet a var value
    match consistentC cw a1 with
    | none => none
    | some true =>
      match ac3C cw doms (some ((neighbors cw var).map (fun n => (n, var)))) with
      | none => none
      | some inf =>
        if inf.1 then
          match recur inf.2 a1 with
          | none => none
          | some res =>
            if res.1 then some res
            else tryValuesC cw recur var res.2.2 res.2.1 rest
        else tryValuesC cw recur var inf.2 a1 rest
    | some false => tryValuesC cw recur var doms (assocDelete a1 var) rest

/-- `CrosswordCreator.backtrack`, crash-aware (`select_unassigned_variable`
and `assignment_complete` perform no indexing, so the total versions are
reused). -/
def backtrackC (cw : Crossword) : Nat → Domains → Assignment →
    Option (Bool × Assignment × Domains)
  | 0, doms, a => some (false, a, doms)
  | fuel + 1, doms, a =>
    if assignment_complete cw a then some (true, a, doms)
    else
      match select_unassigned_variable cw doms a with
      | none => some (true, a, doms)
      | some var =>
        match odvC cw doms a var with
        | none => none
        | some values => tryValuesC cw (fun d b => backtrackC cw fuel d b) var doms a values

/-- `CrosswordCreator.solve`, crash-aware: `some r` means the Python call
returns (`r` being the returned assignment or `None`); `none` means an
exception escapes. -/
def solveC (cw : Crossword) (vocab : List Word) : Option (Option Assignment) :=
  let d0 := enforce_node_consistency (initialDomains cw vocab)
  match ac3C cw d0 none with
  | none => none
  | some afterAC =>
    match backtrackC cw (cw.vars.length + 1) afterAC.2 [] with
    | none => none
    | some res => some (if res.1 then some res.2.1 else none)

/-!
Concrete Constraint Models used by counterexamples and witnesses.  All are
realizable as crossword grids: slot directions alternate across intersections,
and overlap offsets are consistent with the stated geometry.
-/

/-- Slot A of the path model: across, row 0, length 2. -/
def varA : Variable := ⟨0, 0, false, 2⟩

/-- Slot B of the path model: down, column 0, length 3. -/
def varB : Variable := ⟨0, 0, true, 3⟩

/-- Slot C of the path model: across, row 2, length 2. -/
def varC : Variable := ⟨2, 0, false, 2⟩

/-- Overlaps of the path model: `A[0] = B[0]` and `B[2] = C[0]`; A and C do
not intersect. -/
def overlapsCE (x y : Variable) : Option (Nat × Nat) :=
  if x = varA ∧ y = varB then some (0, 0)
  else if x = varB ∧ y = varA then some (0, 0)
  else if x = varB ∧ y = varC then some (2, 0)
  else if x = varC ∧ y = varB then some (0, 2)
  else none

/-- A three-slot crossword: A and C (length 2) both crossing B (length 3). -/
def cwCE : Crossword := ⟨[varA, varB, varC], overlapsCE⟩

/-- Vocabulary for `cwCE`; the resulting domains are already node- and
arc-consistent, so the initial propagation in `solve` changes nothing. -/
def vocabCE : List Word :=
  [['p', 'z'], ['q', 'z'], ['p', 'x', 'p'], ['p', 'u', 'p'], ['q', 'y', 'p'], ['q', 't', 'q']]

/-- The domain store of `cwCE` after node consistency (and, as it happens,
after the initial full AC-3 run, which is a fixed point here). -/
def domsCE : Domains := enforce_node_consistency (initialDomains cwCE vocabCE)

/-- A complete consistent assignment for `cwCE` over `vocabCE`:
A = "qz", B = "qyp", C = "pz". -/
def solCE : Assignment := [(varA, ['q', 'z']), (varB, ['q', 'y', 'p']), (varC, ['p', 'z'])]

/-- A single isolated slot (no neighbors), length 2. -/
def cwOne : Crossword := ⟨[varA], fun _ _ => none⟩

/-- Domain store for `cwOne` with an empty vocabulary: the slot's domain is
empty on entry. -/
def domsOne : Domains := [(varA, [])]

/-- Slot X of the two-slot model: across, length 2. -/
def varX : Variable := ⟨5, 0, false, 2⟩

/-- Slot Y of the two-slot model: down, length 3. -/
def varY : Variable := ⟨5, 0, true, 3⟩

/-- Overlap of the two-slot model: `X[0] = Y[0]`. -/
def overlapsXY (x y : Variable) : Option (Nat × Nat) :=
  if x = varX ∧ y = varY then some (0, 0)
  else if x = varY ∧ y = varX then some (0, 0)
  else none

/-- A two-slot crossword whose domains below are not arc-consistent. -/
def cwXY : Crossword := ⟨[varX, varY], overlapsXY⟩

/-- Domains for `cwXY`: "ab" in X's domain has no support in Y's domain. -/
def domsXY : Domains := [(varX, [['a', 'b']]), (varY, [['z', 'c', 'd']])]

/-- Slot M of the ordering model: across, length 2. -/
def varM : Variable := ⟨7, 0, false, 2⟩

/-- Slot N1 of the ordering model: down at M's first cell, length 2. -/
def varN1 : Variable := ⟨7, 0, true, 2⟩

/-- Slot N2 of the ordering model: down at M's second cell, length 2. -/
def varN2 : Variable := ⟨7, 1, true, 2⟩

/-- Overlaps of the ordering model: `M[0] = N1[0]` and `M[1] = N2[0]`. -/
def overlaps6 (x y : Variable) : Option (Nat × Nat) :=
  if x = varM ∧ y = varN1 then some (0, 0)
  else if x = varN1 ∧ y = varM then some (0, 0)
  else if x = varM ∧ y = varN2 then some (1, 0)
  else if x = varN2 ∧ y = varM then some (0, 1)
  else none

/-- A three-slot crossword used to examine `order_domain_values`. -/
def cw6 : Crossword := ⟨[varM, varN1, varN2], overlaps6⟩

/-- A domain store for `cw6`. -/
def doms6 : Domains :=
  [(varM, [['a', 'p'], ['b', 'q']]), (varN1, [['b', 'z'], ['b', 'y']]), (varN2, [['p', 'k']])]

/-- An assignment for `cw6` in which neighbor N1 is already assigned. -/
def a6 : Assignment := [(varN1, ['b', 'z'])]

/-- A one-slot crossword with a one-word vocabulary, solvable. -/
def cwW : Crossword := ⟨[⟨9, 0, false, 2⟩], fun _ _ => none⟩

/-- Vocabulary for `cwW`. -/
def vocabW : List Word := [['a', 'b']]

/-- A crossword with no slots at all. -/
def cwZero : Crossword := ⟨[], fun _ _ => none⟩


/-!
Helper lemmas about the dictionary embeddings.
-/

theorem mem_neighbors {cw : Crossword} {v n : Variable} :
    n ∈ neighbors cw v ↔ n ∈ cw.vars ∧ ¬ n = v ∧ (cw.overlaps v n).isSome = true := by
  simp [neighbors, List.mem_filter, and_assoc]

theorem neighbors_subset {cw : Crossword} {v n : Variable} (h : n ∈ neighbors cw v) :
    n ∈ cw.vars :=
  (mem_neighbors.1 h).1

theorem domLookup_not_mem {doms : Domains} {x : Variable} (h : ¬ x ∈ keysOf doms) :
    domLookup doms x = [] := by
  induction doms with
  | nil => rfl
  | cons p rest ih =>
    simp only [keysOf, List.map_cons, List.mem_cons] at h
    push_neg at h
    simp only [domLookup]
    rw [if_neg, ih]
    · intro hm
      exact h.2 hm
    · intro hk
      exact h.1 hk.symm

theorem mem_keys_of_domLookup_ne_nil {doms : Domains} {x : Variable}
    (h : ¬ domLookup doms x = []) : x ∈ keysOf doms := by
  by_contra hc
  exact h (domLookup_not_mem hc)

theorem domSet_not_mem {doms : Domains} {x : Variable} {ws : List Word}
    (h : ¬ x ∈ keysOf doms) : domSet doms x ws = doms := by
  induction doms with
  | nil => rfl
  | cons p rest ih =>
    simp only [keysOf, List.map_cons, List.mem_cons] at h
    push_neg at h
    simp only [domSet]
    rw [if_neg, ih]
    · intro hm
      exact h.2 hm
    · intro hk
      exact h.1 hk.symm

theorem domLookup_domSet_self {doms : Domains} {x : Variable} {ws : List Word}
    (h : x ∈ keysOf doms) : domLookup (domSet doms x ws) x = ws := by
  induction doms with
  | nil => simp [keysOf] at h
  | cons p rest ih =>
    obtain ⟨k, old⟩ := p
    by_cases hk : k = x
    · simp [domSet, domLookup, hk]
    · simp only [keysOf, List.map_cons, List.mem_cons] at h
      rcases h with h | h
      · exact absurd h.symm hk
      · simp only [domSet, if_neg hk, domLookup]
        exact ih h

theorem domLookup_domSet_ne {doms : Domains} {x z : Variable} {ws : List Word}
    (h : ¬ z = x) : domLookup (domSet doms x ws) z = domLookup doms z := by
  induction doms with
  | nil => rfl
  | cons p rest ih =>
    obtain ⟨k, old⟩ := p
    by_cases hk : k = x
    · subst hk
      simp only [domSet, if_pos rfl, domLookup]
      rw [if_neg, if_neg]
      · intro he
        exact h he.symm
      · intro he
        exact h he.symm
    · simp only [domSet, if_neg hk, domLookup]
      by_cases hz : k = z
      · rw [if_pos hz, if_pos hz]
      · rw [if_neg hz, if_neg hz, ih]

theorem domSet_lookup_self (doms : Domains) (x : Variable) :
    domSet doms x (domLookup doms x) = doms := by
  induction doms with
  | nil => rfl
  | cons p rest ih =>
    obtain ⟨k, old⟩ := p
    by_cases hk : k = x
    · subst hk
      simp [domSet, domLookup]
    · simp only [domSet, domLookup, if_neg hk]
      rw [ih]

theorem keysOf_domSet (doms : Domains) (x : Variable) (ws : List Word) :
    keysOf (domSet doms x ws) = keysOf doms := by
  induction doms with
  | nil => rfl
  | cons p rest ih =>
    obtain ⟨k, old⟩ := p
    by_cases hk : k = x
    · simp [domSet, keysOf, hk]
    · simp only [domSet, if_neg hk, keysOf, List.map_cons] at ih ⊢
      rw [ih]

theorem supported_iff {dy : List Word} {ox oy : Nat} {wx : Word} :
    supported dy ox oy wx = true ↔ ∃ wy ∈ dy, wx.getD ox ' ' = wy.getD oy ' ' := by
  simp [supported, List.any_eq_true]

/-!
Characterization of `revise`.
-/

theorem revise_lookup_self {cw : Crossword} {doms : Domains} {x y : Variable} {ox oy : Nat}
    (h : cw.overlaps x y = some (ox, oy)) :
    domLookup (revise cw doms x y).2 x =
      (domLookup doms x).filter (supported (domLookup doms y) ox oy) := by
  have hd2 : (revise cw doms x y).2 =
      domSet doms x ((domLookup doms x).filter (supported (domLookup doms y) ox oy)) := by
    simp [revise, h]
  rw [hd2]
  by_cases hmem : x ∈ keysOf doms
  · exact domLookup_domSet_self hmem
  · rw [domSet_not_mem hmem, domLookup_not_mem hmem]
    simp

theorem revise_lookup_other {cw : Crossword} {doms : Domains} {x y z : Variable}
    (h : ¬ z = x) : domLookup (revise cw doms x y).2 z = domLookup doms z := by
  match hov : cw.overlaps x y with
  | none => simp [revise, hov]
  | some (ox, oy) =>
    have hd2 : (revise cw doms x y).2 =
        domSet doms x ((domLookup doms x).filter (supported (domLookup doms y) ox oy)) := by
      simp [revise, hov]
    rw [hd2, domLookup_domSet_ne h]

theorem revise_flag_iff {cw : Crossword} {doms : Domains} {x y : Variable} {ox oy : Nat}
    (h : cw.overlaps x y = some (ox, oy)) :
    (revise cw doms x y).1 = true ↔
      ∃ w ∈ domLookup doms x, ¬ supported (domLookup doms y) ox oy w = true := by
  have hd1 : (revise cw doms x y).1 =
      decide (¬ ((domLookup doms x).filter (supported (domLookup doms y) ox oy)).length
        = (domLookup doms x).length) := by
    simp [revise, h]
  rw [hd1, decide_eq_true_iff]
  rw [← List.length_filter_lt_length_iff_exists]
  constructor
  · intro hne
    exact Nat.lt_of_le_of_ne (List.length_filter_le _ _) hne
  · intro hlt
    exact Nat.ne_of_lt hlt

/-- C7: `revise x y` with no overlap changes nothing and returns `False`;
with an overlap `(ox, oy)` it removes from x's domain exactly the words with
no compatible word in y's current domain, leaves every other domain (in
particular y's) unchanged, and returns `True` iff at least one word was
removed.  The hypothesis is the Constraint Model invariant that a slot has no
overlap with itself (spec §3). -/
theorem revise_correct (cw : Crossword) (doms : Domains) (x y : Variable)
    (hirr : cw.overlaps x x = none) :
    (cw.overlaps x y = none → revise cw doms x y = (false, doms)) ∧
    (∀ ox oy, cw.overlaps x y = some (ox, oy) →
      (∀ w : Word, w ∈ domLookup (revise cw doms x y).2 x ↔
        w ∈ domLookup doms x ∧ ∃ wy ∈ domLookup doms y, w.getD ox ' ' = wy.getD oy ' ') ∧
      (∀ z, ¬ z = x → domLookup (revise cw doms x y).2 z = domLookup doms z) ∧
      domLookup (revise cw doms x y).2 y = domLookup doms y ∧
      ((revise cw doms x y).1 = true ↔
        ∃ w ∈ domLookup doms x,
          ¬ ∃ wy ∈ domLookup doms y, w.getD ox ' ' = wy.getD oy ' ')) := by
  constructor
  · intro h
    simp [revise, h]
  · intro ox oy h
    have hyx : ¬ y = x := by
      intro he
      subst he
      rw [hirr] at h
      exact Option.noConfusion h
    refine ⟨?_, ?_, ?_, ?_⟩
    · intro w
      rw [revise_lookup_self h, List.mem_filter]
      constructor
      · intro ⟨h1, h2⟩
        exact ⟨h1, supported_iff.1 h2⟩
      · intro ⟨h1, h2⟩
        exact ⟨h1, supported_iff.2 h2⟩
    · intro z hz
      exact revise_lookup_other hz
    · exact revise_lookup_other hyx
    · rw [revise_flag_iff h]
      constructor
      · intro ⟨w, hw, hns⟩
        refine ⟨w, hw, ?_⟩
        intro hex
        exact hns (supported_iff.2 hex)
      · intro ⟨w, hw, hne⟩
        refine ⟨w, hw, ?_⟩
        intro hs
        exact hne (supported_iff.1 hs)

/-- Witness for `revise_correct`: at the concrete model, revising A against B
keeps exactly the words of A's domain with a first-letter partner in B's
domain, and reports no removal (the domains are already arc-consistent). -/
theorem revise_correct_witness :
    cwCE.overlaps varA varA = none ∧
    (∀ w : Word, w ∈ domLookup (revise cwCE domsCE varA varB).2 varA ↔
      w ∈ domLookup domsCE varA ∧
        ∃ wy ∈ domLookup domsCE varB, w.getD 0 ' ' = wy.getD 0 ' ') :=
  ⟨by decide, ((revise_correct cwCE domsCE varA varB (by decide)).2 0 0 (by decide)).1⟩

/-!
Claim theorems settled by direct evaluation of the embedded code.
-/

/-- C1: the spec requires that whenever a complete consistent assignment
exists, the search returns one.  The code violates this: over `cwCE` and
`vocabCE` the assignment `solCE` assigns a word to every slot and is
consistent, yet `solve` returns the no-solution signal.  (Root cause:
`backtrack` deletes a candidate only when the consistency check fails; a
consistent candidate whose recursion failed stays in the shared assignment
dict, and that stale entry for slot C blocks every later candidate for slot
A.) -/
theorem backtrack_misses_existing_solution :
    solve cwCE vocabCE = none ∧
    assignment_complete cwCE solCE = true ∧
    consistent cwCE solCE = true ∧
    keysOf solCE = cwCE.vars := by
  refine ⟨?_, ?_, ?_, ?_⟩ <;> decide

/-- C3: the spec requires that whenever a tentatively assigned candidate
fails — by inconsistency *or* by failed inference/recursion — the slot's
entry is removed before the next candidate, so a failing `backtrack` call
must leave the assignment mapping exactly the slots it mapped on entry.  The
code deletes the entry only in the inconsistency branch: the exact top-level
call made by `solve` on `cwCE` enters with the empty assignment and returns
failure with a stale entry for slot C still present (fuel
`cwCE.vars.length + 1` is what `solve` passes). -/
theorem backtrack_fails_with_stale_entry :
    backtrackF cwCE (cwCE.vars.length + 1) domsCE [] =
      (false, [(varC, ['q', 'z'])], domsCE) ∧
    hasKey (backtrackF cwCE (cwCE.vars.length + 1) domsCE []).2.1 varC = true ∧
    hasKey ([] : Assignment) varC = false := by
  refine ⟨?_, ?_, ?_⟩ <;> decide

/-- C4, counterexample: with an empty vocabulary the single slot's domain is
empty already on entry, yet the default `ac3` run returns success with the
domain still empty — contradicting both "returns success only if ... no
domain is empty" and "if any slot's domain is empty at any point during the
run (including on entry), ac3 reports failure". -/
theorem ac3_success_despite_empty_domain :
    domLookup domsOne varA = [] ∧ ac3 cwOne domsOne none = (true, domsOne) := by
  refine ⟨?_, ?_⟩ <;> decide

/-- C5, counterexample: called with the empty seed list, the claim requires
that no pair is processed and no domain changes; instead Python's
`if not arcs:` treats `[]` like `None`, so the full default worklist is
processed — here it prunes X's domain (the call behaves exactly like the
default run). -/
theorem ac3_empty_seed_not_inert :
    ¬ (ac3 cwXY domsXY (some [])).2 = domsXY ∧
    ac3 cwXY domsXY (some []) = ac3 cwXY domsXY none := by
  refine ⟨?_, rfl⟩
  decide

/-- C5 (amended): a *non-empty* caller-supplied seed list initializes the
worklist to exactly that list; `None` and the *empty* seed list both fall
back to the full default worklist; pairs are processed FIFO (the head is
popped, new pairs are appended at the back), and after a revision that
changed x's domain every pair `(n, x)` for each neighbor `n` of `x` other
than `y` is enqueued — as the one-step unfolding of the worklist loop
states. -/
theorem ac3_seed_and_fifo_semantics :
    (∀ cw doms, ac3 cw doms (some []) = ac3 cw doms none) ∧
    (∀ cw doms p l, ac3 cw doms (some (p :: l)) =
       ac3Loop cw (ac3Fuel cw doms (p :: l)) doms (p :: l)) ∧
    (∀ cw fuel doms x y rest,
       ac3Loop cw (fuel + 1) doms ((x, y) :: rest) =
         if (revise cw doms x y).1 then
           if domLookup (revise cw doms x y).2 x = [] then (false, (revise cw doms x y).2)
           else
             ac3Loop cw fuel (revise cw doms x y).2
               (rest ++ ((neighbors cw x).filter (fun n => decide (¬ n = y))).map
                 (fun n => (n, x)))
         else ac3Loop cw fuel (revise cw doms x y).2 rest) :=
  ⟨fun _ _ => rfl, fun _ _ _ _ => rfl, fun _ _ _ _ _ _ => rfl⟩

/-- C6: the spec orders candidates ascending by the number of values they
eliminate from *unassigned* neighbors only.  Over `cw6` with neighbor N1
already assigned, the code returns `["bq", "ap"]`, although the spec-side
counts over unassigned neighbors are 1 for "bq" and 0 for "ap": the output
is strictly descending in the required measure, so assigned neighbors do
contribute.  (Root cause: `value2 not in assignment.keys()` compares a
candidate *word* against the assignment's *keys*, which are variables, so
the exclusion never applies.) -/
theorem odv_counts_assigned_neighbors :
    order_domain_values cw6 doms6 a6 varM = [['b', 'q'], ['a', 'p']] ∧
    specElimCount cw6 doms6 a6 varM ['b', 'q'] = 1 ∧
    specElimCount cw6 doms6 a6 varM ['a', 'p'] = 0 := by
  refine ⟨?_, ?_, ?_⟩ <;> decide

/-- C10: with zero slots, `solve` returns the empty assignment (a Solved
outcome with no entries) rather than the no-solution signal, for every
vocabulary: the empty assignment is immediately complete. -/
theorem solve_empty_model (cw : Crossword) (vocab : List Word) (h : cw.vars = []) :
    solve cw vocab = some [] := by
  obtain ⟨vs, ov⟩ := cw
  have hv : vs = [] := h
  subst hv
  rfl

/-- Witness for `solve_empty_model` at the concrete slot-free model. -/
theorem solve_empty_model_witness :
    cwZero.vars = [] ∧ solve cwZero vocabW = some [] :=
  ⟨rfl, solve_empty_model cwZero vocabW rfl⟩

/-!
The assignment-level consistency check against the spec's three conditions.
-/

theorem conflictFlag_iff {cw : Crossword} {a : Assignment} {v n : Variable} {w : Word} :
    conflictFlag cw a v w n = true ↔
      ∃ nw, assocLookup a n = some nw ∧
        ∃ o1 o2, cw.overlaps v n = some (o1, o2) ∧ ¬ nw.getD o2 ' ' = w.getD o1 ' ' := by
  constructor
  · intro hflag
    unfold conflictFlag at hflag
    rcases hl : assocLookup a n with _ | nw
    · rw [hl] at hflag
      exact absurd hflag (by simp)
    · rw [hl] at hflag
      rcases ho : cw.overlaps v n with _ | ⟨o1, o2⟩
      · rw [ho] at hflag
        exact absurd hflag (by simp)
      · rw [ho] at hflag
        exact ⟨nw, rfl, o1, o2, rfl, of_decide_eq_true hflag⟩
  · rintro ⟨nw, hl, o1, o2, ho, hne⟩
    unfold conflictFlag
    rw [hl, ho]
    exact decide_eq_true hne

theorem consistentAux_iff (cw : Crossword) (a : Assignment) :
    ∀ (l : List (Variable × Word)) (used : List Word),
      consistentAux cw a l used = true ↔
        ((l.map Prod.snd).Nodup ∧
         (∀ w ∈ l.map Prod.snd, ¬ w ∈ used) ∧
         (∀ p ∈ l, (p.2 : Word).length = (p.1 : Variable).length) ∧
         (∀ p ∈ l, ∀ n ∈ neighbors cw (p.1 : Variable), ∀ nw,
           assocLookup a n = some nw → ∀ o1 o2, cw.overlaps (p.1 : Variable) n = some (o1, o2) →
             nw.getD o2 ' ' = (p.2 : Word).getD o1 ' ')) := by
  intro l
  induction l with
  | nil =>
    intro used
    simp [consistentAux]
  | cons p rest ih =>
    intro used
    obtain ⟨v, w⟩ := p
    have hstep : consistentAux cw a ((v, w) :: rest) used =
        if w ∈ used then false
        else if ¬ w.length = v.length then false
        else if (neighbors cw v).any (conflictFlag cw a v w) then false
        else consistentAux cw a rest (w :: used) := rfl
    by_cases h1 : w ∈ used
    · rw [hstep, if_pos h1]
      simp only [Bool.false_eq_true, false_iff]
      rintro ⟨-, hused, -, -⟩
      exact hused w (by simp) h1
    · by_cases h2 : ¬ w.length = v.length
      · rw [hstep, if_neg h1, if_pos h2]
        simp only [Bool.false_eq_true, false_iff]
        rintro ⟨-, -, hlen, -⟩
        exact h2 (hlen (v, w) (by simp))
      · by_cases h3 : (neighbors cw v).any (conflictFlag cw a v w) = true
        · rw [hstep, if_neg h1, if_neg h2, if_pos h3]
          simp only [Bool.false_eq_true, false_iff]
          rintro ⟨-, -, -, hnbr⟩
          rcases List.any_eq_true.1 h3 with ⟨n, hn, hflag⟩
          rcases conflictFlag_iff.1 hflag with ⟨nw, hlook, o1, o2, hov, hne⟩
          exact hne (hnbr (v, w) (by simp) n hn nw hlook o1 o2 hov)
        · rw [hstep, if_neg h1, if_neg h2, if_neg h3, ih (w :: used)]
          constructor
          · rintro ⟨hnd, hused, hlen, hnbr⟩
            refine ⟨?_, ?_, ?_, ?_⟩
            · simp only [List.map_cons, List.nodup_cons]
              refine ⟨?_, hnd⟩
              intro hw
              exact hused w hw (List.mem_cons_self w used)
            · intro x hx
              simp only [List.map_cons, List.mem_cons] at hx
              rcases hx with hx | hx
              · subst hx
                exact h1
              · intro hu
                exact hused x hx (List.mem_cons_of_mem w hu)
            · intro p hp
              rcases List.mem_cons.1 hp with hp | hp
              · subst hp
                exact not_not.1 h2
              · exact hlen p hp
            · intro p hp n hn nw hlook o1 o2 hov
              rcases List.mem_cons.1 hp with hp | hp
              · subst hp
                by_contra hne
                exact h3 (List.any_eq_true.2 ⟨n, hn, conflictFlag_iff.2 ⟨nw, hlook, o1, o2, hov, hne⟩⟩)
              · exact hnbr p hp n hn nw hlook o1 o2 hov
          · rintro ⟨hnd, hused, hlen, hnbr⟩
            simp only [List.map_cons, List.nodup_cons] at hnd
            refine ⟨hnd.2, ?_, ?_, ?_⟩
            · intro x hx hmem
              rcases List.mem_cons.1 hmem with hx2 | hx2
              · subst hx2
                exact hnd.1 hx
              · exact hused x (by simp [hx]) hx2
            · intro p hp
              exact hlen p (List.mem_cons_of_mem _ hp)
            · intro p hp n hn nw hlook o1 o2 hov
              exact hnbr p (List.mem_cons_of_mem _ hp) n hn nw hlook o1 o2 hov

theorem consistent_eq_true_iff (cw : Crossword) (a : Assignment) :
    consistent cw a = true ↔ specConsistentAssignment cw a := by
  unfold consistent specConsistentAssignment
  rw [consistentAux_iff]
  constructor
  · rintro ⟨hnd, -, hlen, hnbr⟩
    exact ⟨hnd, hlen, fun p hp n hn nw hlook o1 o2 hov =>
      (hnbr p hp n hn nw hlook o1 o2 hov).symm⟩
  · rintro ⟨hnd, hlen, hnbr⟩
    refine ⟨hnd, by simp, hlen, fun p hp n hn nw hlook o1 o2 hov =>
      (hnbr p hp n hn nw hlook o1 o2 hov).symm⟩

/-!
Assignment-dict and selection lemmas for the search soundness proof.
-/

theorem hasKey_iff {a : Assignment} {v : Variable} :
    hasKey a v = true ↔ v ∈ keysOf a := by
  simp [hasKey, List.any_eq_true, keysOf, List.mem_map]

theorem assocLookup_isSome_of_mem_keys {a : Assignment} {v : Variable}
    (h : v ∈ keysOf a) : ∃ w, assocLookup a v = some w := by
  induction a with
  | nil => simp [keysOf] at h
  | cons p rest ih =>
    obtain ⟨k, w⟩ := p
    by_cases hk : k = v
    · exact ⟨w, by simp [assocLookup, hk]⟩
    · simp only [keysOf, List.map_cons, List.mem_cons] at h
      rcases h with h | h
      · exact absurd h.symm hk
      · rcases ih h with ⟨w2, hw2⟩
        exact ⟨w2, by simp [assocLookup, hk, hw2]⟩

theorem assocLookup_mem {a : Assignment} {v : Variable} {w : Word}
    (h : assocLookup a v = some w) : (v, w) ∈ a := by
  induction a with
  | nil => exact absurd h (by simp [assocLookup])
  | cons p rest ih =>
    obtain ⟨k, w2⟩ := p
    by_cases hk : k = v
    · subst hk
      have hw2 : assocLookup ((k, w2) :: rest) k = some w2 := by
        simp [assocLookup]
      rw [hw2] at h
      cases h
      exact List.mem_cons_self _ _
    · simp only [assocLookup, if_neg hk] at h
      exact List.mem_cons_of_mem _ (ih h)

theorem keysOf_assocSet_of_mem {a : Assignment} {v : Variable} {w : Word}
    (h : v ∈ keysOf a) : keysOf (assocSet a v w) = keysOf a := by
  induction a with
  | nil => simp [keysOf] at h
  | cons p rest ih =>
    obtain ⟨k, old⟩ := p
    by_cases hk : k = v
    · simp [assocSet, hk, keysOf]
    · simp only [keysOf, List.map_cons, List.mem_cons] at h
      rcases h with h | h
      · exact absurd h.symm hk
      · simp only [assocSet, if_neg hk, keysOf, List.map_cons] at ih ⊢
        rw [ih h]

theorem keysOf_assocSet_of_not_mem {a : Assignment} {v : Variable} {w : Word}
    (h : ¬ v ∈ keysOf a) : keysOf (assocSet a v w) = keysOf a ++ [v] := by
  induction a with
  | nil => rfl
  | cons p rest ih =>
    obtain ⟨k, old⟩ := p
    simp only [keysOf, List.map_cons, List.mem_cons] at h
    push_neg at h
    have hk : ¬ k = v := fun he => h.1 he.symm
    simp only [assocSet, if_neg hk, keysOf, List.map_cons, List.cons_append] at ih ⊢
    rw [ih h.2]

theorem keysOf_assocDelete (a : Assignment) (v : Variable) :
    keysOf (assocDelete a v) = (keysOf a).filter (fun k => decide (¬ k = v)) := by
  induction a with
  | nil => rfl
  | cons p rest ih =>
    obtain ⟨k, w⟩ := p
    by_cases hk : k = v
    · simp [assocDelete, keysOf, List.filter, hk] at ih ⊢
      exact ih
    · simp only [assocDelete, keysOf, List.filter, List.map_cons] at ih ⊢
      rw [decide_eq_true (by exact hk : ¬ k = v)]
      simp only [List.map_cons]
      rw [ih]

theorem goodKeys_assocSet {cw : Crossword} {a : Assignment} {v : Variable} {w : Word}
    (hg : goodKeys cw a) (hv : v ∈ cw.vars) : goodKeys cw (assocSet a v w) := by
  by_cases h : v ∈ keysOf a
  · rw [goodKeys, keysOf_assocSet_of_mem h]
    exact hg
  · rw [goodKeys, keysOf_assocSet_of_not_mem h]
    constructor
    · simp only [List.nodup_append, List.nodup_cons, List.nodup_nil]
      refine ⟨hg.1, by simp, ?_⟩
      intro k hk
      simp only [List.mem_singleton]
      intro he
      subst he
      exact h hk
    · intro k hk
      rcases List.mem_append.1 hk with hk | hk
      · exact hg.2 k hk
      · rw [List.mem_singleton.1 hk]
        exact hv

theorem goodKeys_assocDelete {cw : Crossword} {a : Assignment} {v : Variable}
    (hg : goodKeys cw a) : goodKeys cw (assocDelete a v) := by
  rw [goodKeys, keysOf_assocDelete]
  constructor
  · exact hg.1.filter _
  · intro k hk
    exact hg.2 k (List.mem_of_mem_filter hk)

theorem mem_insertIntoSorted {α : Type} {lt : α → α → Bool} {x y : α} {l : List α} :
    x ∈ insertIntoSorted lt y l ↔ x = y ∨ x ∈ l := by
  induction l with
  | nil => simp [insertIntoSorted]
  | cons z rest ih =>
    by_cases h : lt z y = true
    · simp only [insertIntoSorted, if_pos h, List.mem_cons, ih]
      tauto
    · simp only [insertIntoSorted, if_neg h, List.mem_cons]

theorem mem_stableSort {α : Type} {lt : α → α → Bool} {x : α} {l : List α} :
    x ∈ stableSort lt l ↔ x ∈ l := by
  induction l with
  | nil => simp [stableSort]
  | cons z rest ih =>
    simp only [stableSort, mem_insertIntoSorted, List.mem_cons, ih]

theorem length_insertIntoSorted {α : Type} (lt : α → α → Bool) (x : α) (l : List α) :
    (insertIntoSorted lt x l).length = l.length + 1 := by
  induction l with
  | nil => rfl
  | cons z rest ih =>
    by_cases h : lt z x = true
    · simp only [insertIntoSorted, if_pos h, List.length_cons, ih]
    · simp only [insertIntoSorted, if_neg h, List.length_cons]

theorem length_stableSort {α : Type} (lt : α → α → Bool) (l : List α) :
    (stableSort lt l).length = l.length := by
  induction l with
  | nil => rfl
  | cons z rest ih =>
    simp only [stableSort, length_insertIntoSorted, List.length_cons, ih]

theorem stableSort_eq_nil {α : Type} {lt : α → α → Bool} {l : List α}
    (h : stableSort lt l = []) : l = [] := by
  have := length_stableSort lt l
  rw [h] at this
  exact List.length_eq_zero.1 this.symm

theorem select_some {cw : Crossword} {doms : Domains} {a : Assignment} {var : Variable}
    (h : select_unassigned_variable cw doms a = some var) :
    var ∈ cw.vars ∧ hasKey a var = false := by
  unfold select_unassigned_variable at h
  rcases hs : stableSort (selectLt cw doms) (cw.vars.filter (fun v => !(hasKey a v)))
    with _ | ⟨v0, rest⟩
  · rw [hs] at h
    exact absurd h (by simp)
  · rw [hs] at h
    simp only [Option.some.injEq] at h
    subst h
    have hv0 : v0 ∈ cw.vars.filter (fun v => !(hasKey a v)) := by
      rw [← @mem_stableSort Variable (selectLt cw doms) v0
        (cw.vars.filter (fun v => !(hasKey a v))), hs]
      exact List.mem_cons_self _ _
    have := List.mem_filter.1 hv0
    exact ⟨this.1, by simpa using this.2⟩

theorem select_none {cw : Crossword} {doms : Domains} {a : Assignment}
    (h : select_unassigned_variable cw doms a = none) :
    ∀ v ∈ cw.vars, hasKey a v = true := by
  unfold select_unassigned_variable at h
  rcases hs : stableSort (selectLt cw doms) (cw.vars.filter (fun v => !(hasKey a v)))
    with _ | ⟨v0, rest⟩
  · have hfil := stableSort_eq_nil hs
    intro v hv
    by_contra hkey
    have hmem : v ∈ cw.vars.filter (fun v => !(hasKey a v)) := by
      refine List.mem_filter.2 ⟨hv, ?_⟩
      simp only [Bool.not_eq_true] at hkey
      simp [hkey]
    rw [hfil] at hmem
    exact absurd hmem (by simp)
  · rw [hs] at h
    exact absurd h (by simp)

/-!
Search soundness: a successful `backtrack` result is complete and consistent.
-/

theorem tryValues_sound (cw : Crossword)
    (recur : Domains → Assignment → Bool × Assignment × Domains)
    (hrec : ∀ doms a, goodKeys cw a →
      goodKeys cw (recur doms a).2.1 ∧
      ((recur doms a).1 = true →
        ((recur doms a).2.1.length = cw.vars.length ∧
         (consistent cw (recur doms a).2.1 = true ∨ (recur doms a).2.1 = a))))
    (var : Variable) (hvar : var ∈ cw.vars) :
    ∀ (values : List Word) (doms : Domains) (a : Assignment), goodKeys cw a →
      goodKeys cw (tryValues cw recur var doms a values).2.1 ∧
      ((tryValues cw recur var doms a values).1 = true →
        ((tryValues cw recur var doms a values).2.1.length = cw.vars.length ∧
         consistent cw (tryValues cw recur var doms a values).2.1 = true)) := by
  intro values
  induction values with
  | nil =>
    intro doms a hg
    exact ⟨hg, fun h => absurd h (by simp [tryValues])⟩
  | cons value rest ih =>
    intro doms a hg
    have hg1 : goodKeys cw (assocSet a var value) := goodKeys_assocSet hg hvar
    by_cases hcons : consistent cw (assocSet a var value) = true
    · by_cases hinf :
        (ac3 cw doms (some ((neighbors cw var).map (fun n => (n, var))))).1 = true
      · by_cases hres :
          (recur (ac3 cw doms (some ((neighbors cw var).map (fun n => (n, var))))).2
            (assocSet a var value)).1 = true
        · have hstep : tryValues cw recur var doms a (value :: rest) =
              recur (ac3 cw doms (some ((neighbors cw var).map (fun n => (n, var))))).2
                (assocSet a var value) := by
            simp only [tryValues]
            rw [if_pos hcons, if_pos hinf, if_pos hres]
          rw [hstep]
          obtain ⟨hgk, hsnd⟩ := hrec _ _ hg1
          obtain ⟨hlen, hdisj⟩ := hsnd hres
          refine ⟨hgk, fun _ => ⟨hlen, ?_⟩⟩
          rcases hdisj with hd | hd
          · exact hd
          · rw [hd]
            exact hcons
        · have hstep : tryValues cw recur var doms a (value :: rest) =
              tryValues cw recur var
                (recur (ac3 cw doms (some ((neighbors cw var).map (fun n => (n, var))))).2
                  (assocSet a var value)).2.2
                (recur (ac3 cw doms (some ((neighbors cw var).map (fun n => (n, var))))).2
                  (assocSet a var value)).2.1 rest := by
            simp only [tryValues]
            rw [if_pos hcons, if_pos hinf, if_neg hres]
          rw [hstep]
          exact ih _ _ (hrec _ _ hg1).1
      · have hstep : tryValues cw recur var doms a (value :: rest) =
            tryValues cw recur var
              (ac3 cw doms (some ((neighbors cw var).map (fun n => (n, var))))).2
              (assocSet a var value) rest := by
          simp only [tryValues]
          rw [if_pos hcons, if_neg hinf]
        rw [hstep]
        exact ih _ _ hg1
    · have hstep : tryValues cw recur var doms a (value :: rest) =
          tryValues cw recur var doms (assocDelete (assocSet a var value) var) rest := by
        simp only [tryValues]
        rw [if_neg hcons]
      rw [hstep]
      exact ih _ _ (goodKeys_assocDelete hg1)

theorem backtrack_state_sound (cw : Crossword) (hv : cw.vars.Nodup) :
    ∀ (fuel : Nat) (doms : Domains) (a : Assignment), goodKeys cw a →
      goodKeys cw (backtrackF cw fuel doms a).2.1 ∧
      ((backtrackF cw fuel doms a).1 = true →
        ((backtrackF cw fuel doms a).2.1.length = cw.vars.length ∧
         (consistent cw (backtrackF cw fuel doms a).2.1 = true ∨
          (backtrackF cw fuel doms a).2.1 = a))) := by
  intro fuel
  induction fuel with
  | zero =>
    intro doms a hg
    exact ⟨hg, fun h => absurd h (by simp [backtrackF])⟩
  | succ fuel ih =>
    intro doms a hg
    by_cases hc : assignment_complete cw a = true
    · have hstep : backtrackF cw (fuel + 1) doms a = (true, a, doms) := by
        simp only [backtrackF]
        rw [if_pos hc]
      rw [hstep]
      exact ⟨hg, fun _ => ⟨of_decide_eq_true hc, Or.inr rfl⟩⟩
    · rcases hsel : select_unassigned_variable cw doms a with _ | var
      · exfalso
        have hall := select_none hsel
        have hsub1 : cw.vars ⊆ keysOf a := fun v hv2 => hasKey_iff.1 (hall v hv2)
        have h1 := (hv.subperm hsub1).length_le
        have h2 := (hg.1.subperm hg.2).length_le
        have hklen : (keysOf a).length = a.length := by
          simp [keysOf]
        exact hc (decide_eq_true (by omega))
      · have hvar := select_some hsel
        have hstep : backtrackF cw (fuel + 1) doms a =
            tryValues cw (fun d b => backtrackF cw fuel d b) var doms a
              (order_domain_values cw doms a var) := by
          simp only [backtrackF]
          rw [if_neg hc, hsel]
        rw [hstep]
        have hres := tryValues_sound cw (fun d b => backtrackF cw fuel d b)
          (fun d b hb => ih d b hb) var hvar.1
          (order_domain_values cw doms a var) doms a hg
        exact ⟨hres.1, fun h => ⟨(hres.2 h).1, Or.inl (hres.2 h).2⟩⟩

/-- C2: whenever `solve` returns a non-None result, that result assigns a
word to every slot of the Constraint Model, all assigned words are pairwise
distinct, each assigned word's length equals its slot's length, and every
pair of assigned neighboring slots agrees at the overlap offsets.  The
hypothesis is the Constraint Model invariant that the slot list has no
duplicates. -/
theorem solve_sound (cw : Crossword) (vocab : List Word) (a : Assignment)
    (hv : cw.vars.Nodup) (hs : solve cw vocab = some a) :
    specSolvedOutcome cw a := by
  unfold solve at hs
  set r := backtrackF cw (cw.vars.length + 1)
    (ac3 cw (enforce_node_consistency (initialDomains cw vocab)) none).2 [] with hr
  by_cases h1 : r.1 = true
  · rw [if_pos h1] at hs
    injection hs with ha
    obtain ⟨hgk, hsnd⟩ := backtrack_state_sound cw hv (cw.vars.length + 1)
      (ac3 cw (enforce_node_consistency (initialDomains cw vocab)) none).2 []
      ⟨List.nodup_nil, by simp [keysOf]⟩
    rw [← hr] at hgk hsnd
    obtain ⟨hlen, hdisj⟩ := hsnd h1
    subst ha
    constructor
    · intro v hvv
      apply assocLookup_isSome_of_mem_keys
      have hsp : (keysOf r.2.1).Subperm cw.vars := hgk.1.subperm hgk.2
      have hperm : (keysOf r.2.1).Perm cw.vars := by
        refine hsp.perm_of_length_le ?_
        rw [keysOf, List.length_map, hlen]
      exact hperm.mem_iff.2 hvv
    · rcases hdisj with hd | hd
      · exact (consistent_eq_true_iff cw r.2.1).1 hd
      · rw [hd]
        exact ⟨List.nodup_nil, by simp, by simp⟩
  · rw [if_neg h1] at hs
    exact absurd hs (by simp)

/-- Witness for `solve_sound`: the one-slot model is solved with "ab", and
the returned assignment satisfies the Solved-outcome predicate. -/
theorem solve_sound_witness :
    cwW.vars.Nodup ∧ specSolvedOutcome cwW [(⟨9, 0, false, 2⟩, ['a', 'b'])] :=
  ⟨by decide,
   solve_sound cwW vocabW [(⟨9, 0, false, 2⟩, ['a', 'b'])] (by decide) (by decide)⟩

/-!
AC-3: a successful default run leaves every ordered pair arc-consistent, and
never empties a nonempty domain.
-/

theorem arcConsistent_none {cw : Crossword} {doms : Domains} {x y : Variable}
    (ho : cw.overlaps x y = none) : arcConsistent cw doms x y := by
  simp [arcConsistent, ho]

theorem arcConsistent_some_iff {cw : Crossword} {doms : Domains} {x y : Variable}
    {o1 o2 : Nat} (ho : cw.overlaps x y = some (o1, o2)) :
    arcConsistent cw doms x y ↔
      ∀ wx ∈ domLookup doms x, ∃ wy ∈ domLookup doms y,
        wx.getD o1 ' ' = wy.getD o2 ' ' := by
  simp [arcConsistent, ho]

theorem revise_unchanged {cw : Crossword} {doms : Domains} {x y : Variable}
    (h : (revise cw doms x y).1 = false) : (revise cw doms x y).2 = doms := by
  rcases ho : cw.overlaps x y with _ | ⟨ox, oy⟩
  · simp [revise, ho]
  · have h1 : (revise cw doms x y).1 =
        decide (¬ ((domLookup doms x).filter (supported (domLookup doms y) ox oy)).length
          = (domLookup doms x).length) := by
      simp [revise, ho]
    rw [h1] at h
    have heq := not_not.1 (of_decide_eq_false h)
    have hfe : (domLookup doms x).filter (supported (domLookup doms y) ox oy) =
        domLookup doms x :=
      (List.filter_sublist _).eq_of_length heq
    have h2 : (revise cw doms x y).2 =
        domSet doms x ((domLookup doms x).filter (supported (domLookup doms y) ox oy)) := by
      simp [revise, ho]
    rw [h2, hfe, domSet_lookup_self]

theorem revise_unchanged_consistent {cw : Crossword} {doms : Domains} {x y : Variable}
    (h : (revise cw doms x y).1 = false) : arcConsistent cw doms x y := by
  rcases ho : cw.overlaps x y with _ | ⟨ox, oy⟩
  · exact arcConsistent_none ho
  · have h1 : (revise cw doms x y).1 =
        decide (¬ ((domLookup doms x).filter (supported (domLookup doms y) ox oy)).length
          = (domLookup doms x).length) := by
      simp [revise, ho]
    rw [h1] at h
    have heq := not_not.1 (of_decide_eq_false h)
    have hfe : (domLookup doms x).filter (supported (domLookup doms y) ox oy) =
        domLookup doms x :=
      (List.filter_sublist _).eq_of_length heq
    rw [arcConsistent_some_iff ho]
    intro wx hwx
    have := List.filter_eq_self.1 hfe wx hwx
    exact supported_iff.1 this

theorem revise_post_consistent {cw : Crossword} {doms : Domains} {x y : Variable}
    {ox oy : Nat} (ho : cw.overlaps x y = some (ox, oy)) (hxy : ¬ y = x) :
    arcConsistent cw (revise cw doms x y).2 x y := by
  rw [arcConsistent_some_iff ho]
  intro wx hwx
  rw [revise_lookup_self ho] at hwx
  rw [revise_lookup_other hxy]
  exact supported_iff.1 (List.mem_filter.1 hwx).2

theorem arcConsistent_antitone {cw : Crossword} {d1 doms : Domains} {u v : Variable}
    (hsub : ∀ w, w ∈ domLookup d1 u → w ∈ domLookup doms u)
    (hv : domLookup d1 v = domLookup doms v)
    (h : arcConsistent cw doms u v) : arcConsistent cw d1 u v := by
  rcases ho : cw.overlaps u v with _ | ⟨o1, o2⟩
  · exact arcConsistent_none ho
  · rw [arcConsistent_some_iff ho] at h ⊢
    intro wx hwx
    rw [hv]
    exact h wx (hsub wx hwx)

theorem mem_defaultArcs {cw : Crossword} {p : Variable × Variable} :
    p ∈ defaultArcs cw ↔ ∃ v ∈ cw.vars, ∃ n ∈ neighbors cw v, p = (v, n) := by
  simp only [defaultArcs, List.mem_flatten, List.mem_map]
  constructor
  · rintro ⟨l, ⟨v, hv, rfl⟩, hp⟩
    rcases List.mem_map.1 hp with ⟨n, hn, rfl⟩
    exact ⟨v, hv, n, hn, rfl⟩
  · rintro ⟨v, hv, n, hn, rfl⟩
    exact ⟨(neighbors cw v).map (fun n => (v, n)), ⟨v, hv, rfl⟩,
      List.mem_map.2 ⟨n, hn, rfl⟩⟩

theorem ac3Loop_sound (cw : Crossword)
    (hsym : ∀ x ∈ cw.vars, ∀ y ∈ cw.vars, overlapsSymAt cw x y = true)
    (hirr : ∀ x ∈ cw.vars, cw.overlaps x x = none) :
    ∀ (fuel : Nat) (doms : Domains) (arcs : List (Variable × Variable)) (d2 : Domains),
      (∀ p ∈ arcs, (p.1 : Variable) ∈ cw.vars ∧ (p.2 : Variable) ∈ cw.vars) →
      (∀ x ∈ cw.vars, ∀ y ∈ cw.vars, (x, y) ∈ arcs ∨ arcConsistent cw doms x y) →
      ac3Loop cw fuel doms arcs = (true, d2) →
      (∀ x ∈ cw.vars, ∀ y ∈ cw.vars, arcConsistent cw d2 x y) ∧
      (∀ v, ¬ domLookup doms v = [] → ¬ domLookup d2 v = []) := by
  intro fuel
  induction fuel with
  | zero =>
    intro doms arcs d2 _ _ hrun
    exact absurd hrun (by simp [ac3Loop])
  | succ fuel ih =>
    intro doms arcs d2 harcs hinv hrun
    cases arcs with
    | nil =>
      have hrun2 : ((true, doms) : Bool × Domains) = (true, d2) := hrun
      injection hrun2 with _ hd
      subst hd
      constructor
      · intro x hx y hy
        rcases hinv x hx y hy with h | h
        · exact absurd h (by simp)
        · exact h
      · intro v h
        exact h
    | cons hd tl =>
      obtain ⟨x, y⟩ := hd
      by_cases hch : (revise cw doms x y).1 = true
      · by_cases hemp : domLookup (revise cw doms x y).2 x = []
        · have hstep : ac3Loop cw (fuel + 1) doms ((x, y) :: tl) =
              (false, (revise cw doms x y).2) := by
            simp only [ac3Loop]
            rw [if_pos hch, if_pos hemp]
          rw [hstep] at hrun
          exact absurd hrun (by simp)
        · have hx : x ∈ cw.vars := (harcs (x, y) (List.mem_cons_self _ _)).1
          have hy : y ∈ cw.vars := (harcs (x, y) (List.mem_cons_self _ _)).2
          have hov : ∃ ox oy, cw.overlaps x y = some (ox, oy) := by
            rcases ho : cw.overlaps x y with _ | ⟨ox, oy⟩
            · have hfl : (revise cw doms x y).1 = false := by
                simp [revise, ho]
              rw [hfl] at hch
              exact absurd hch (by simp)
            · exact ⟨ox, oy, rfl⟩
          obtain ⟨ox, oy, hov⟩ := hov
          have hxney : ¬ x = y := by
            intro he
            subst he
            rw [hirr x hx] at hov
            exact Option.noConfusion hov
          have hynex : ¬ y = x := fun he => hxney he.symm
          have hyx : cw.overlaps y x = some (oy, ox) := by
            have hs := hsym x hx y hy
            unfold overlapsSymAt at hs
            rw [hov] at hs
            exact of_decide_eq_true hs
          have hlx : domLookup (revise cw doms x y).2 x =
              (domLookup doms x).filter (supported (domLookup doms y) ox oy) :=
            revise_lookup_self hov
          have hstep : ac3Loop cw (fuel + 1) doms ((x, y) :: tl) =
              ac3Loop cw fuel (revise cw doms x y).2
                (tl ++ ((neighbors cw x).filter (fun n => decide (¬ n = y))).map
                  (fun n => (n, x))) := by
            simp only [ac3Loop]
            rw [if_pos hch, if_neg hemp]
          rw [hstep] at hrun
          have harcs2 : ∀ p ∈ tl ++ ((neighbors cw x).filter (fun n => decide (¬ n = y))).map
              (fun n => (n, x)), (p.1 : Variable) ∈ cw.vars ∧ (p.2 : Variable) ∈ cw.vars := by
            intro p hp
            rcases List.mem_append.1 hp with hp | hp
            · exact harcs p (List.mem_cons_of_mem _ hp)
            · rcases List.mem_map.1 hp with ⟨n, hn, rfl⟩
              exact ⟨neighbors_subset (List.mem_of_mem_filter hn), hx⟩
          have hinv2 : ∀ u ∈ cw.vars, ∀ v ∈ cw.vars,
              (u, v) ∈ tl ++ ((neighbors cw x).filter (fun n => decide (¬ n = y))).map
                (fun n => (n, x)) ∨ arcConsistent cw (revise cw doms x y).2 u v := by
            intro u hu v hv
            rcases hinv u hu v hv with h | h
            · rcases List.mem_cons.1 h with he | he
              · injection he with h1 h2
                subst u
                subst v
                exact Or.inr (revise_post_consistent hov hynex)
              · exact Or.inl (List.mem_append_left _ he)
            · by_cases hvx : v = x
              · subst v
                by_cases huy : u = y
                · subst u
                  refine Or.inr ?_
                  rw [arcConsistent_some_iff hyx]
                  intro wy hwy
                  rw [revise_lookup_other hynex] at hwy
                  rcases (arcConsistent_some_iff hyx).1 h wy hwy with ⟨wx, hwx, hagree⟩
                  refine ⟨wx, ?_, hagree⟩
                  rw [hlx]
                  refine List.mem_filter.2 ⟨hwx, ?_⟩
                  exact supported_iff.2 ⟨wy, hwy, hagree.symm⟩
                · rcases houx : cw.overlaps u x with _ | ⟨a, b⟩
                  · exact Or.inr (arcConsistent_none houx)
                  · have hunex : ¬ u = x := by
                      intro he
                      subst he
                      rw [hirr u hu] at houx
                      exact Option.noConfusion houx
                    have hxu : cw.overlaps x u = some (b, a) := by
                      have hs := hsym u hu x hx
                      unfold overlapsSymAt at hs
                      rw [houx] at hs
                      exact of_decide_eq_true hs
                    refine Or.inl (List.mem_append_right _ ?_)
                    refine List.mem_map.2 ⟨u, ?_, rfl⟩
                    refine List.mem_filter.2 ⟨?_, by simp [huy]⟩
                    exact mem_neighbors.2 ⟨hu, hunex, by simp [hxu]⟩
              · refine Or.inr (arcConsistent_antitone ?_ (revise_lookup_other hvx) h)
                intro w hw
                by_cases hux : u = x
                · subst hux
                  rw [hlx] at hw
                  exact (List.mem_filter.1 hw).1
                · rw [revise_lookup_other hux] at hw
                  exact hw
          have hres := ih (revise cw doms x y).2 _ d2 harcs2 hinv2 hrun
          refine ⟨hres.1, ?_⟩
          intro v hne
          apply hres.2
          by_cases hvx : v = x
          · subst hvx
            exact hemp
          · rw [revise_lookup_other hvx]
            exact hne
      · have hfl : (revise cw doms x y).1 = false := by
          cases hb : (revise cw doms x y).1
          · rfl
          · exact absurd hb hch
        have hd1 : (revise cw doms x y).2 = doms := revise_unchanged hfl
        have hstep : ac3Loop cw (fuel + 1) doms ((x, y) :: tl) =
            ac3Loop cw fuel (revise cw doms x y).2 tl := by
          simp only [ac3Loop]
          rw [if_neg hch]
        rw [hstep, hd1] at hrun
        have hxycons : arcConsistent cw doms x y := revise_unchanged_consistent hfl
        have hinv2 : ∀ u ∈ cw.vars, ∀ v ∈ cw.vars,
            (u, v) ∈ tl ∨ arcConsistent cw doms u v := by
          intro u hu v hv
          rcases hinv u hu v hv with h | h
          · rcases List.mem_cons.1 h with he | he
            · injection he with h1 h2
              subst u
              subst v
              exact Or.inr hxycons
            · exact Or.inl he
          · exact Or.inr h
        exact ih doms tl d2 (fun p hp => harcs p (List.mem_cons_of_mem _ hp)) hinv2 hrun

/-- C4 (amended): for the default full run, `ac3` returns success only with
every ordered pair of slots arc-consistent on return, and success never
*empties* a domain — every domain nonempty on entry is nonempty on return;
however, a domain already empty on entry (and never changed by a revision)
does not trigger failure, so success does not guarantee nonempty domains.
The hypotheses are the Constraint Model invariants: symmetric overlaps and
no self-overlap. -/
theorem ac3_default_success_sound (cw : Crossword) (doms : Domains)
    (hsym : ∀ x ∈ cw.vars, ∀ y ∈ cw.vars, overlapsSymAt cw x y = true)
    (hirr : ∀ x ∈ cw.vars, cw.overlaps x x = none)
    (d2 : Domains) (hrun : ac3 cw doms none = (true, d2)) :
    (∀ x ∈ cw.vars, ∀ y ∈ cw.vars, arcConsistent cw d2 x y) ∧
    (∀ v, ¬ domLookup doms v = [] → ¬ domLookup d2 v = []) := by
  have hrun2 : ac3Loop cw (ac3Fuel cw doms (defaultArcs cw)) doms (defaultArcs cw) =
      (true, d2) := hrun
  refine ac3Loop_sound cw hsym hirr _ doms (defaultArcs cw) d2 ?_ ?_ hrun2
  · intro p hp
    rcases mem_defaultArcs.1 hp with ⟨v, hv, n, hn, rfl⟩
    exact ⟨hv, neighbors_subset hn⟩
  · intro x hx y hy
    rcases ho : cw.overlaps x y with _ | ⟨o1, o2⟩
    · exact Or.inr (arcConsistent_none ho)
    · have hxney : ¬ y = x := by
        intro he
        subst y
        rw [hirr x hx] at ho
        exact Option.noConfusion ho
      refine Or.inl (mem_defaultArcs.2 ⟨x, hx, y, ?_, rfl⟩)
      exact mem_neighbors.2 ⟨hy, hxney, by simp [ho]⟩

/-- Witness for `ac3_default_success_sound`: the path model satisfies the
invariants; its node-consistent domains are a fixed point of the default
run, which returns success with every pair arc-consistent. -/
theorem ac3_default_success_sound_witness :
    (∀ x ∈ cwCE.vars, ∀ y ∈ cwCE.vars, overlapsSymAt cwCE x y = true) ∧
    (∀ x ∈ cwCE.vars, cwCE.overlaps x x = none) ∧
    (∀ x ∈ cwCE.vars, ∀ y ∈ cwCE.vars, arcConsistent cwCE domsCE x y) :=
  ⟨by decide, by decide,
   (ac3_default_success_sound cwCE domsCE (by decide) (by decide) domsCE (by decide)).1⟩

/-!
Crash-safety of the engine: under the Constraint Model invariants every
indexing operation reached from `solve` is in bounds.
-/

theorem get?_some_of_lt {l : Word} {n : Nat} (h : n < l.length) :
    ∃ c, l.get? n = some c := by
  rcases hg : l.get? n with _ | c
  · rw [List.get?_eq_none] at hg
    omega
  · exact ⟨c, rfl⟩

theorem domsWF_lookup {doms : Domains} (hwf : domsWF doms) (v : Variable) :
    ∀ w ∈ domLookup doms v, (w : Word).length = v.length := by
  induction doms with
  | nil => simp [domLookup]
  | cons p rest ih =>
    obtain ⟨k, ws⟩ := p
    by_cases hk : k = v
    · subst hk
      intro w hw
      rw [show domLookup ((k, ws) :: rest) k = ws from by simp [domLookup]] at hw
      exact hwf (k, ws) (List.mem_cons_self _ _) w hw
    · intro w hw
      rw [show domLookup ((k, ws) :: rest) v = domLookup rest v from by
        simp [domLookup, hk]] at hw
      exact ih (fun p hp => hwf p (List.mem_cons_of_mem _ hp)) w hw

theorem domsWF_domSet {doms : Domains} {v : Variable} {ws : List Word}
    (hwf : domsWF doms) (hws : ∀ w ∈ ws, (w : Word).length = v.length) :
    domsWF (domSet doms v ws) := by
  induction doms with
  | nil => simp [domSet, domsWF]
  | cons p rest ih =>
    obtain ⟨k, old⟩ := p
    by_cases hk : k = v
    · subst hk
      rw [show domSet ((k, old) :: rest) k ws = (k, ws) :: rest from by simp [domSet]]
      intro p hp
      rcases List.mem_cons.1 hp with hp | hp
      · subst hp
        exact hws
      · exact hwf p (List.mem_cons_of_mem _ hp)
    · rw [show domSet ((k, old) :: rest) v ws = (k, old) :: domSet rest v ws from by
        simp [domSet, hk]]
      intro p hp
      rcases List.mem_cons.1 hp with hp | hp
      · subst hp
        exact hwf (k, old) (List.mem_cons_self _ _)
      · exact ih (fun q hq => hwf q (List.mem_cons_of_mem _ hq)) p hp

theorem overlap_bounds {cw : Crossword} {x y : Variable} {ox oy : Nat}
    (hbnd : ∀ u ∈ cw.vars, ∀ v ∈ cw.vars, overlapBoundsAt cw u v = true)
    (hx : x ∈ cw.vars) (hy : y ∈ cw.vars) (ho : cw.overlaps x y = some (ox, oy)) :
    ox < x.length ∧ oy < y.length := by
  have hb := hbnd x hx y hy
  unfold overlapBoundsAt at hb
  rw [ho] at hb
  simp only [Bool.and_eq_true, decide_eq_true_iff] at hb
  exact hb

theorem checkWordC_some {ox oy : Nat} {wx : Word}
    (hx : ox < wx.length) :
    ∀ dy : List Word, (∀ wy ∈ dy, oy < (wy : Word).length) →
      ∃ b, checkWordC ox oy wx dy = some b := by
  intro dy
  induction dy with
  | nil => exact fun _ => ⟨false, rfl⟩
  | cons wy rest ih =>
    intro hdy
    obtain ⟨c, hc⟩ := get?_some_of_lt hx
    obtain ⟨c2, hc2⟩ := get?_some_of_lt (hdy wy (List.mem_cons_self _ _))
    obtain ⟨b, hb⟩ := ih (fun w hw => hdy w (List.mem_cons_of_mem _ hw))
    refine ⟨b || decide (c = c2), ?_⟩
    simp only [checkWordC, hc, hc2, hb]

theorem filterDomC_some {ox oy : Nat} {dy : List Word}
    (hdy : ∀ wy ∈ dy, oy < (wy : Word).length) :
    ∀ dx : List Word, (∀ wx ∈ dx, ox < (wx : Word).length) →
      ∃ kept, filterDomC dy ox oy dx = some kept ∧ ∀ w ∈ kept, w ∈ dx := by
  intro dx
  induction dx with
  | nil => exact fun _ => ⟨[], rfl, by simp⟩
  | cons wx rest ih =>
    intro hdx
    obtain ⟨b, hb⟩ := checkWordC_some (hdx wx (List.mem_cons_self _ _)) dy hdy
    obtain ⟨kept, hkept, hsub⟩ := ih (fun w hw => hdx w (List.mem_cons_of_mem _ hw))
    refine ⟨if b then wx :: kept else kept, ?_, ?_⟩
    · simp only [filterDomC, hb, hkept]
    · intro w hw
      by_cases hbb : b = true
      · rw [if_pos hbb] at hw
        rcases List.mem_cons.1 hw with hw | hw
        · subst hw
          exact List.mem_cons_self _ _
        · exact List.mem_cons_of_mem _ (hsub w hw)
      · rw [if_neg hbb] at hw
        exact List.mem_cons_of_mem _ (hsub w hw)

theorem reviseC_ok {cw : Crossword} {doms : Domains} {x y : Variable}
    (hbnd : ∀ u ∈ cw.vars, ∀ v ∈ cw.vars, overlapBoundsAt cw u v = true)
    (hwf : domsWF doms) (hx : x ∈ cw.vars) (hy : y ∈ cw.vars) :
    ∃ r, reviseC cw doms x y = some r ∧ domsWF r.2 := by
  rcases ho : cw.overlaps x y with _ | ⟨ox, oy⟩
  · exact ⟨(false, doms), by simp [reviseC, ho], hwf⟩
  · obtain ⟨hox, hoy⟩ := overlap_bounds hbnd hx hy ho
    obtain ⟨kept, hkept, hsub⟩ := filterDomC_some
      (fun wy hwy => by rw [domsWF_lookup hwf y wy hwy]; exact hoy)
      (domLookup doms x)
      (fun wx hwx => by rw [domsWF_lookup hwf x wx hwx]; exact hox)
    refine ⟨(decide (¬ kept.length = (domLookup doms x).length), domSet doms x kept),
      ?_, ?_⟩
    · simp only [reviseC, ho, hkept]
    · exact domsWF_domSet hwf
        (fun w hw => domsWF_lookup hwf x w (hsub w hw))

theorem ac3LoopC_ok {cw : Crossword}
    (hbnd : ∀ u ∈ cw.vars, ∀ v ∈ cw.vars, overlapBoundsAt cw u v = true) :
    ∀ (fuel : Nat) (doms : Domains) (arcs : List (Variable × Variable)),
      domsWF doms →
      (∀ p ∈ arcs, (p.1 : Variable) ∈ cw.vars ∧ (p.2 : Variable) ∈ cw.vars) →
      ∃ r, ac3LoopC cw fuel doms arcs = some r ∧ domsWF r.2 := by
  intro fuel
  induction fuel with
  | zero =>
    intro doms arcs hwf _
    exact ⟨(false, doms), rfl, hwf⟩
  | succ fuel ih =>
    intro doms arcs hwf harcs
    cases arcs with
    | nil => exact ⟨(true, doms), rfl, hwf⟩
    | cons hd tl =>
      obtain ⟨x, y⟩ := hd
      have hx := (harcs (x, y) (List.mem_cons_self _ _)).1
      have hy := (harcs (x, y) (List.mem_cons_self _ _)).2
      obtain ⟨r, hr, hrwf⟩ := reviseC_ok hbnd hwf hx hy
      by_cases hflag : r.1 = true
      · by_cases hemp : domLookup r.2 x = []
        · refine ⟨(false, r.2), ?_, hrwf⟩
          simp only [ac3LoopC, hr]
          rw [if_pos hflag, if_pos hemp]
        · have harcs2 : ∀ p ∈ tl ++ ((neighbors cw x).filter
              (fun n => decide (¬ n = y))).map (fun n => (n, x)),
              (p.1 : Variable) ∈ cw.vars ∧ (p.2 : Variable) ∈ cw.vars := by
            intro p hp
            rcases List.mem_append.1 hp with hp | hp
            · exact harcs p (List.mem_cons_of_mem _ hp)
            · rcases List.mem_map.1 hp with ⟨n, hn, rfl⟩
              exact ⟨neighbors_subset (List.mem_of_mem_filter hn), hx⟩
          obtain ⟨r2, hr2, hr2wf⟩ := ih r.2
            (tl ++ ((neighbors cw x).filter (fun n => decide (¬ n = y))).map (fun n => (n, x)))
            hrwf harcs2
          refine ⟨r2, ?_, hr2wf⟩
          simp only [ac3LoopC, hr]
          rw [if_pos hflag, if_neg hemp]
          exact hr2
      · obtain ⟨r2, hr2, hr2wf⟩ := ih r.2 tl hrwf
          (fun p hp => harcs p (List.mem_cons_of_mem _ hp))
        refine ⟨r2, ?_, hr2wf⟩
        simp only [ac3LoopC, hr]
        rw [if_neg hflag]
        exact hr2

theorem ac3C_none_ok {cw : Crossword} {doms : Domains}
    (hbnd : ∀ u ∈ cw.vars, ∀ v ∈ cw.vars, overlapBoundsAt cw u v = true)
    (hwf : domsWF doms) :
    ∃ r, ac3C cw doms none = some r ∧ domsWF r.2 := by
  refine ac3LoopC_ok hbnd _ doms (defaultArcs cw) hwf ?_
  intro p hp
  rcases mem_defaultArcs.1 hp with ⟨v, hv, n, hn, rfl⟩
  exact ⟨hv, neighbors_subset hn⟩

theorem ac3C_seed_ok {cw : Crossword} {doms : Domains} {l : List (Variable × Variable)}
    (hbnd : ∀ u ∈ cw.vars, ∀ v ∈ cw.vars, overlapBoundsAt cw u v = true)
    (hwf : domsWF doms)
    (hl : ∀ p ∈ l, (p.1 : Variable) ∈ cw.vars ∧ (p.2 : Variable) ∈ cw.vars) :
    ∃ r, ac3C cw doms (some l) = some r ∧ domsWF r.2 := by
  cases l with
  | nil =>
    refine ac3LoopC_ok hbnd _ doms (defaultArcs cw) hwf ?_
    intro p hp
    rcases mem_defaultArcs.1 hp with ⟨v, hv, n, hn, rfl⟩
    exact ⟨hv, neighbors_subset hn⟩
  | cons p rest =>
    exact ac3LoopC_ok hbnd _ doms (p :: rest) hwf hl

theorem assignWF_assocSet {a : Assignment} {v : Variable} {w : Word}
    (ha : assignWF a) (hw : w.length = v.length) : assignWF (assocSet a v w) := by
  induction a with
  | nil =>
    intro p hp
    rcases List.mem_singleton.1 hp with rfl
    exact hw
  | cons q rest ih =>
    obtain ⟨k, old⟩ := q
    by_cases hk : k = v
    · subst hk
      rw [show assocSet ((k, old) :: rest) k w = (k, w) :: rest from by simp [assocSet]]
      intro p hp
      rcases List.mem_cons.1 hp with hp | hp
      · subst hp
        exact hw
      · exact ha p (List.mem_cons_of_mem _ hp)
    · rw [show assocSet ((k, old) :: rest) v w = (k, old) :: assocSet rest v w from by
        simp [assocSet, hk]]
      intro p hp
      rcases List.mem_cons.1 hp with hp | hp
      · subst hp
        exact ha (k, old) (List.mem_cons_self _ _)
      · exact ih (fun q hq => ha q (List.mem_cons_of_mem _ hq)) p hp

theorem assignWF_assocDelete {a : Assignment} {v : Variable} (ha : assignWF a) :
    assignWF (assocDelete a v) :=
  fun p hp => ha p (List.mem_of_mem_filter hp)

theorem keys_assocSet_subset {cw : Crossword} {a : Assignment} {v : Variable} {w : Word}
    (hk : ∀ k ∈ keysOf a, k ∈ cw.vars) (hv : v ∈ cw.vars) :
    ∀ k ∈ keysOf (assocSet a v w), k ∈ cw.vars := by
  by_cases hm : v ∈ keysOf a
  · rw [keysOf_assocSet_of_mem hm]
    exact hk
  · rw [keysOf_assocSet_of_not_mem hm]
    intro k hkm
    rcases List.mem_append.1 hkm with h | h
    · exact hk k h
    · rw [List.mem_singleton.1 h]
      exact hv

theorem keys_assocDelete_subset {cw : Crossword} {a : Assignment} {v : Variable}
    (hk : ∀ k ∈ keysOf a, k ∈ cw.vars) :
    ∀ k ∈ keysOf (assocDelete a v), k ∈ cw.vars := by
  rw [keysOf_assocDelete]
  intro k hkm
  exact hk k (List.mem_of_mem_filter hkm)

theorem neighborConflictC_some {cw : Crossword} {a : Assignment} {v : Variable} {w : Word}
    (hbnd : ∀ u ∈ cw.vars, ∀ z ∈ cw.vars, overlapBoundsAt cw u z = true)
    (hv : v ∈ cw.vars) (haWF : assignWF a) (hw : w.length = v.length) :
    ∀ ns : List Variable, (∀ n ∈ ns, n ∈ neighbors cw v) →
      ∃ b, neighborConflictC cw a v w ns = some b := by
  intro ns
  induction ns with
  | nil => exact fun _ => ⟨false, rfl⟩
  | cons n rest ih =>
    intro hns
    rcases hl : assocLookup a n with _ | nw
    · obtain ⟨b, hb⟩ := ih (fun m hm => hns m (List.mem_cons_of_mem _ hm))
      refine ⟨b, ?_⟩
      simp only [neighborConflictC, hl]
      exact hb
    · have hmem := mem_neighbors.1 (hns n (List.mem_cons_self _ _))
      obtain ⟨⟨o1, o2⟩, ho⟩ := Option.isSome_iff_exists.1 hmem.2.2
      obtain ⟨ho1, ho2⟩ := overlap_bounds hbnd hv hmem.1 ho
      have hnw : nw.length = n.length := haWF (n, nw) (assocLookup_mem hl)
      obtain ⟨c2, hc2⟩ := get?_some_of_lt (show o2 < nw.length by rw [hnw]; exact ho2)
      obtain ⟨c1, hc1⟩ := get?_some_of_lt (show o1 < w.length by rw [hw]; exact ho1)
      by_cases hcc : ¬ c2 = c1
      · refine ⟨true, ?_⟩
        simp only [neighborConflictC, hl, ho, hc2, hc1]
        rw [if_pos hcc]
      · obtain ⟨b, hb⟩ := ih (fun m hm => hns m (List.mem_cons_of_mem _ hm))
        refine ⟨b, ?_⟩
        simp only [neighborConflictC, hl, ho, hc2, hc1]
        rw [if_neg hcc]
        exact hb

theorem consistentAuxC_some {cw : Crossword} {a : Assignment}
    (hbnd : ∀ u ∈ cw.vars, ∀ z ∈ cw.vars, overlapBoundsAt cw u z = true)
    (hkeys : ∀ k ∈ keysOf a, k ∈ cw.vars) (haWF : assignWF a) :
    ∀ (l : List (Variable × Word)) (used : List Word), (∀ p ∈ l, p ∈ a) →
      ∃ b, consistentAuxC cw a l used = some b := by
  intro l
  induction l with
  | nil => exact fun used _ => ⟨true, rfl⟩
  | cons p rest ih =>
    intro used hl
    obtain ⟨v, w⟩ := p
    by_cases h1 : w ∈ used
    · refine ⟨false, ?_⟩
      simp only [consistentAuxC]
      rw [if_pos h1]
    · by_cases h2 : ¬ w.length = v.length
      · refine ⟨false, ?_⟩
        simp only [consistentAuxC]
        rw [if_neg h1, if_pos h2]
      · have hw := not_not.1 h2
        have hva : v ∈ cw.vars := by
          apply hkeys
          exact List.mem_map.2 ⟨(v, w), hl (v, w) (List.mem_cons_self _ _), rfl⟩
        obtain ⟨b, hb⟩ := neighborConflictC_some hbnd hva haWF hw (neighbors cw v)
          (fun m hm => hm)
        cases b with
        | true =>
          refine ⟨false, ?_⟩
          simp only [consistentAuxC]
          rw [if_neg h1, if_neg h2, hb]
        | false =>
          obtain ⟨b2, hb2⟩ := ih (w :: used) (fun q hq => hl q (List.mem_cons_of_mem _ hq))
          refine ⟨b2, ?_⟩
          simp only [consistentAuxC]
          rw [if_neg h1, if_neg h2, hb]
          exact hb2

theorem consistentC_some {cw : Crossword} {a : Assignment}
    (hbnd : ∀ u ∈ cw.vars, ∀ z ∈ cw.vars, overlapBoundsAt cw u z = true)
    (hkeys : ∀ k ∈ keysOf a, k ∈ cw.vars) (haWF : assignWF a) :
    ∃ b, consistentC cw a = some b :=
  consistentAuxC_some hbnd hkeys haWF a [] (fun _p hp => hp)

theorem conflictCountC_some (a : Assignment) {value : Word} {i0 i1 : Nat}
    (h0 : i0 < value.length) :
    ∀ dn : List Word, (∀ v2 ∈ dn, i1 < (v2 : Word).length) →
      ∃ k, conflictCountC a value i0 i1 dn = some k := by
  intro dn
  induction dn with
  | nil => exact fun _ => ⟨0, rfl⟩
  | cons v2 rest ih =>
    intro hdn
    obtain ⟨c1, hc1⟩ := get?_some_of_lt h0
    obtain ⟨c2, hc2⟩ := get?_some_of_lt (hdn v2 (List.mem_cons_self _ _))
    obtain ⟨k, hk⟩ := ih (fun u hu => hdn u (List.mem_cons_of_mem _ hu))
    refine ⟨if decide (¬ c1 = c2) && !(wordIsAssignmentKey a v2) then k + 1 else k, ?_⟩
    simp only [conflictCountC, hc1, hc2, hk]

theorem neighborCountsC_some {cw : Crossword} {doms : Domains} (a : Assignment)
    {var : Variable} {value : Word}
    (hbnd : ∀ u ∈ cw.vars, ∀ z ∈ cw.vars, overlapBoundsAt cw u z = true)
    (hwf : domsWF doms) (hvar : var ∈ cw.vars) (hval : value.length = var.length) :
    ∀ ns : List Variable, (∀ n ∈ ns, n ∈ neighbors cw var) →
      ∃ k, neighborCountsC cw doms a var value ns = some k := by
  intro ns
  induction ns with
  | nil => exact fun _ => ⟨0, rfl⟩
  | cons n rest ih =>
    intro hns
    have hmem := mem_neighbors.1 (hns n (List.mem_cons_self _ _))
    obtain ⟨⟨i0, i1⟩, ho⟩ := Option.isSome_iff_exists.1 hmem.2.2
    obtain ⟨h0, h1⟩ := overlap_bounds hbnd hvar hmem.1 ho
    obtain ⟨k, hk⟩ := conflictCountC_some a (show i0 < value.length by rw [hval]; exact h0)
      (domLookup doms n) (fun v2 hv2 => by rw [domsWF_lookup hwf n v2 hv2]; exact h1)
    obtain ⟨m, hm⟩ := ih (fun u hu => hns u (List.mem_cons_of_mem _ hu))
    refine ⟨k + m, ?_⟩
    simp only [neighborCountsC, ho, hk, hm]

theorem odvPairsC_some {cw : Crossword} {doms : Domains} (a : Assignment) {var : Variable}
    (hbnd : ∀ u ∈ cw.vars, ∀ z ∈ cw.vars, overlapBoundsAt cw u z = true)
    (hwf : domsWF doms) (hvar : var ∈ cw.vars) :
    ∀ values : List Word, (∀ w ∈ values, w ∈ domLookup doms var) →
      ∃ ps, odvPairsC cw doms a var values = some ps ∧
        ∀ q ∈ ps, (q : Word × Nat).1 ∈ values := by
  intro values
  induction values with
  | nil => exact fun _ => ⟨[], rfl, by simp⟩
  | cons v rest ih =>
    intro hvals
    obtain ⟨c, hc⟩ := neighborCountsC_some a hbnd hwf hvar
      (domsWF_lookup hwf var v (hvals v (List.mem_cons_self _ _)))
      (neighbors cw var) (fun m hm => hm)
    obtain ⟨ps, hps, hsub⟩ := ih (fun w hw => hvals w (List.mem_cons_of_mem _ hw))
    refine ⟨(v, c) :: ps, ?_, ?_⟩
    · simp only [odvPairsC, hc, hps]
    · intro q hq
      rcases List.mem_cons.1 hq with hq | hq
      · subst hq
        exact List.mem_cons_self _ _
      · exact List.mem_cons_of_mem _ (hsub q hq)

theorem odvC_some {cw : Crossword} {doms : Domains} (a : Assignment) {var : Variable}
    (hbnd : ∀ u ∈ cw.vars, ∀ z ∈ cw.vars, overlapBoundsAt cw u z = true)
    (hwf : domsWF doms) (hvar : var ∈ cw.vars) :
    ∃ values, odvC cw doms a var = some values ∧
      ∀ w ∈ values, (w : Word).length = var.length := by
  obtain ⟨ps, hps, hsub⟩ := odvPairsC_some a hbnd hwf hvar (domLookup doms var)
    (fun w hw => hw)
  refine ⟨(stableSort odvLt ps).map Prod.fst, ?_, ?_⟩
  · simp only [odvC, hps]
  · intro w hw
    rcases List.mem_map.1 hw with ⟨q, hq, rfl⟩
    exact domsWF_lookup hwf var q.1 (hsub q (mem_stableSort.1 hq))

theorem tryValuesC_ok {cw : Crossword}
    (hbnd : ∀ u ∈ cw.vars, ∀ z ∈ cw.vars, overlapBoundsAt cw u z = true)
    (recur : Domains → Assignment → Option (Bool × Assignment × Domains))
    (hrec : ∀ d b, domsWF d → (∀ k ∈ keysOf b, k ∈ cw.vars) → assignWF b →
      ∃ r, recur d b = some r ∧ domsWF r.2.2 ∧
        (∀ k ∈ keysOf r.2.1, k ∈ cw.vars) ∧ assignWF r.2.1)
    (var : Variable) (hvar : var ∈ cw.vars) :
    ∀ values : List Word, (∀ w ∈ values, (w : Word).length = var.length) →
      ∀ (doms : Domains) (a : Assignment), domsWF doms →
        (∀ k ∈ keysOf a, k ∈ cw.vars) → assignWF a →
        ∃ r, tryValuesC cw recur var doms a values = some r ∧ domsWF r.2.2 ∧
          (∀ k ∈ keysOf r.2.1, k ∈ cw.vars) ∧ assignWF r.2.1 := by
  intro values
  induction values with
  | nil =>
    intro _ doms a hwf hkeys haWF
    exact ⟨(false, a, doms), rfl, hwf, hkeys, haWF⟩
  | cons value rest ih =>
    intro hvals doms a hwf hkeys haWF
    have hk1 : ∀ k ∈ keysOf (assocSet a var value), k ∈ cw.vars :=
      keys_assocSet_subset hkeys hvar
    have ha1 : assignWF (assocSet a var value) :=
      assignWF_assocSet haWF (hvals value (List.mem_cons_self _ _))
    obtain ⟨b, hb⟩ := consistentC_some hbnd hk1 ha1
    cases b with
    | false =>
      obtain ⟨r, hr, hrest⟩ := ih (fun w hw => hvals w (List.mem_cons_of_mem _ hw))
        doms (assocDelete (assocSet a var value) var) hwf
        (keys_assocDelete_subset hk1) (assignWF_assocDelete ha1)
      refine ⟨r, ?_, hrest⟩
      simp only [tryValuesC, hb]
      exact hr
    | true =>
      have hseed : ∀ p ∈ (neighbors cw var).map (fun n => (n, var)),
          (p.1 : Variable) ∈ cw.vars ∧ (p.2 : Variable) ∈ cw.vars := by
        intro p hp
        rcases List.mem_map.1 hp with ⟨n, hn, rfl⟩
        exact ⟨neighbors_subset hn, hvar⟩
      obtain ⟨inf, hinf, hinfwf⟩ := ac3C_seed_ok hbnd hwf hseed
      by_cases hflag : inf.1 = true
      · obtain ⟨res, hres, hreswf, hresk, hresa⟩ := hrec inf.2 (assocSet a var value)
          hinfwf hk1 ha1
        by_cases hsucc : res.1 = true
        · refine ⟨res, ?_, hreswf, hresk, hresa⟩
          simp only [tryValuesC, hb, hinf, hres]
          rw [if_pos hflag, if_pos hsucc]
        · obtain ⟨r, hr, hrest⟩ := ih (fun w hw => hvals w (List.mem_cons_of_mem _ hw))
            res.2.2 res.2.1 hreswf hresk hresa
          refine ⟨r, ?_, hrest⟩
          simp only [tryValuesC, hb, hinf, hres]
          rw [if_pos hflag, if_neg hsucc]
          exact hr
      · obtain ⟨r, hr, hrest⟩ := ih (fun w hw => hvals w (List.mem_cons_of_mem _ hw))
          inf.2 (assocSet a var value) hinfwf hk1 ha1
        refine ⟨r, ?_, hrest⟩
        simp only [tryValuesC, hb, hinf]
        rw [if_neg hflag]
        exact hr

theorem backtrackC_ok {cw : Crossword}
    (hbnd : ∀ u ∈ cw.vars, ∀ z ∈ cw.vars, overlapBoundsAt cw u z = true) :
    ∀ (fuel : Nat) (doms : Domains) (a : Assignment), domsWF doms →
      (∀ k ∈ keysOf a, k ∈ cw.vars) → assignWF a →
      ∃ r, backtrackC cw fuel doms a = some r ∧ domsWF r.2.2 ∧
        (∀ k ∈ keysOf r.2.1, k ∈ cw.vars) ∧ assignWF r.2.1 := by
  intro fuel
  induction fuel with
  | zero =>
    intro doms a hwf hkeys haWF
    exact ⟨(false, a, doms), rfl, hwf, hkeys, haWF⟩
  | succ fuel ih =>
    intro doms a hwf hkeys haWF
    by_cases hc : assignment_complete cw a = true
    · refine ⟨(true, a, doms), ?_, hwf, hkeys, haWF⟩
      simp only [backtrackC]
      rw [if_pos hc]
    · rcases hsel : select_unassigned_variable cw doms a with _ | var
      · refine ⟨(true, a, doms), ?_, hwf, hkeys, haWF⟩
        simp only [backtrackC]
        rw [if_neg hc, hsel]
      · have hvar := (select_some hsel).1
        obtain ⟨values, hvalues, hvlen⟩ := odvC_some a hbnd hwf hvar
        obtain ⟨r, hr, hrest⟩ := tryValuesC_ok hbnd (fun d b => backtrackC cw fuel d b)
          (fun d b hd hk hb => ih d b hd hk hb) var hvar values hvlen doms a hwf hkeys haWF
        refine ⟨r, ?_, hrest⟩
        simp only [backtrackC]
        rw [if_neg hc, hsel]
        show (match odvC cw doms a var with
          | none => none
          | some values =>
            tryValuesC cw (fun d b => backtrackC cw fuel d b) var doms a values) = some r
        rw [hvalues]
        exact hr

theorem enforce_node_consistency_WF (doms : Domains) :
    domsWF (enforce_node_consistency doms) := by
  intro p hp w hw
  rcases List.mem_map.1 hp with ⟨q, hq, rfl⟩
  exact of_decide_eq_true (List.mem_filter.1 hw).2

theorem enforce_initial_nil (cw : Crossword) :
    enforce_node_consistency (initialDomains cw []) =
      cw.vars.map (fun v => (v, ([] : List Word))) := by
  unfold enforce_node_consistency initialDomains
  rw [List.map_map]
  rfl

theorem domLookup_all_nil (vs : List Variable) (u : Variable) :
    domLookup (vs.map (fun v => (v, ([] : List Word)))) u = [] := by
  induction vs with
  | nil => rfl
  | cons v rest ih =>
    simp only [List.map_cons, domLookup]
    by_cases h : v = u
    · rw [if_pos h]
    · rw [if_neg h]
      exact ih

theorem reviseC_empty_dom {cw : Crossword} {doms : Domains} {x y : Variable}
    (h : domLookup doms x = []) : reviseC cw doms x y = some (false, doms) := by
  have hset : domSet doms x [] = doms := by
    rw [← h]
    exact domSet_lookup_self doms x
  rcases ho : cw.overlaps x y with _ | ⟨ox, oy⟩
  · simp [reviseC, ho]
  · simp only [reviseC, ho, h]
    show some (decide (¬ (List.length ([] : List Word)) = List.length ([] : List Word)),
      domSet doms x []) = some (false, doms)
    rw [hset]
    simp

theorem ac3LoopC_all_empty {cw : Crossword} {doms : Domains}
    (hempty : ∀ v, domLookup doms v = []) :
    ∀ (arcs : List (Variable × Variable)) (fuel : Nat), arcs.length < fuel →
      ac3LoopC cw fuel doms arcs = some (true, doms) := by
  intro arcs
  induction arcs with
  | nil =>
    intro fuel hf
    cases fuel with
    | zero => omega
    | succ f => rfl
  | cons hd tl ih =>
    intro fuel hf
    obtain ⟨x, y⟩ := hd
    cases fuel with
    | zero => omega
    | succ f =>
      have hrev : reviseC cw doms x y = some (false, doms) := reviseC_empty_dom (hempty x)
      simp only [ac3LoopC, hrev]
      rw [if_neg (by simp)]
      refine ih f ?_
      simp only [List.length_cons] at hf
      omega

/-- C9: under the Constraint Model invariant that overlap offsets lie inside
their two slots (spec §3), no exception escapes the engine on any Constraint
Model and vocabulary presented at the interface `solve`: the crash-aware
embedding `solveC` — in which `none` models an exception escaping any of the
operations `solve` runs (`enforce_node_consistency`, `revise`, `ac3`,
`consistent`, `order_domain_values`, `select_unassigned_variable`,
`backtrack`) — always returns a value.  In particular, with an empty
vocabulary and at least one slot, node consistency empties every domain and
the run returns the no-solution signal rather than crashing. -/
theorem solveC_no_crash (cw : Crossword) (vocab : List Word)
    (hbnd : ∀ u ∈ cw.vars, ∀ z ∈ cw.vars, overlapBoundsAt cw u z = true) :
    (∃ r, solveC cw vocab = some r) ∧
    (vocab = [] → ¬ cw.vars = [] → solveC cw vocab = some none) := by
  constructor
  · have hwf0 := enforce_node_consistency_WF (initialDomains cw vocab)
    obtain ⟨afterAC, hAC, hACwf⟩ := ac3C_none_ok hbnd hwf0
    obtain ⟨res, hres, -⟩ := backtrackC_ok hbnd (cw.vars.length + 1) afterAC.2 []
      hACwf (by simp [keysOf]) (by simp [assignWF])
    refine ⟨if res.1 then some res.2.1 else none, ?_⟩
    simp only [solveC, hAC, hres]
  · intro hvocab hvars
    subst hvocab
    have hempty : ∀ v, domLookup (enforce_node_consistency (initialDomains cw [])) v = [] := by
      intro v
      rw [enforce_initial_nil cw]
      exact domLookup_all_nil cw.vars v
    have hAC : ac3C cw (enforce_node_consistency (initialDomains cw [])) none =
        some (true, enforce_node_consistency (initialDomains cw [])) := by
      show ac3LoopC cw (ac3Fuel cw (enforce_node_consistency (initialDomains cw []))
          (defaultArcs cw)) (enforce_node_consistency (initialDomains cw []))
          (defaultArcs cw) =
        some (true, enforce_node_consistency (initialDomains cw []))
      refine ac3LoopC_all_empty hempty (defaultArcs cw) _ ?_
      unfold ac3Fuel
      omega
    have hvlen : 0 < cw.vars.length := List.length_pos.2 hvars
    have hcomp : assignment_complete cw ([] : Assignment) = false := by
      unfold assignment_complete
      simp only [List.length_nil]
      exact decide_eq_false (by omega)
    have hsel : ∃ var, select_unassigned_variable cw
        (enforce_node_consistency (initialDomains cw [])) [] = some var := by
      rcases hs : select_unassigned_variable cw
          (enforce_node_consistency (initialDomains cw [])) [] with _ | var
      · exfalso
        obtain ⟨v, hv⟩ := List.exists_mem_of_ne_nil cw.vars hvars
        have hcontr := select_none hs v hv
        simp [hasKey] at hcontr
      · exact ⟨var, rfl⟩
    obtain ⟨var, hsel⟩ := hsel
    have hodv : odvC cw (enforce_node_consistency (initialDomains cw [])) [] var =
        some [] := by
      unfold odvC
      rw [hempty var]
      rfl
    have hbt : backtrackC cw (cw.vars.length + 1)
        (enforce_node_consistency (initialDomains cw [])) [] =
        some (false, [], enforce_node_consistency (initialDomains cw [])) := by
      simp only [backtrackC]
      rw [if_neg (by rw [hcomp]; simp), hsel]
      show (match odvC cw (enforce_node_consistency (initialDomains cw [])) [] var with
        | none => none
        | some values =>
          tryValuesC cw (fun d b => backtrackC cw cw.vars.length d b) var
            (enforce_node_consistency (initialDomains cw [])) [] values) =
        some (false, [], enforce_node_consistency (initialDomains cw []))
      rw [hodv]
      rfl
    show (match ac3C cw (enforce_node_consistency (initialDomains cw [])) none with
      | none => none
      | some afterAC =>
        match backtrackC cw (cw.vars.length + 1) afterAC.2 [] with
        | none => none
        | some res => some (if res.1 then some res.2.1 else none)) = some none
    rw [hAC]
    show (match backtrackC cw (cw.vars.length + 1)
        (enforce_node_consistency (initialDomains cw [])) [] with
      | none => none
      | some res => some (if res.1 then some res.2.1 else none)) = some none
    rw [hbt]
    rfl

/-- Witness for `solveC_no_crash`: the one-slot model satisfies the bounds
invariant; with its one-word vocabulary the engine runs to completion, and
with the empty vocabulary it reports no solution. -/
theorem solveC_no_crash_witness :
    (∀ u ∈ cwW.vars, ∀ z ∈ cwW.vars, overlapBoundsAt cwW u z = true) ∧
    (∃ r, solveC cwW vocabW = some r) ∧
    solveC cwW [] = some none :=
  ⟨by decide, (solveC_no_crash cwW vocabW (by decide)).1,
   (solveC_no_crash cwW [] (by decide)).2 rfl (by decide)⟩

/-!
Exactness of `consistent` on the calls that return: agreement between the
crash-aware item loop and the spec-side consistency predicate.
-/

theorem getD_eq_of_get?_some {l : Word} {n : Nat} {c : Char}
    (h : l.get? n = some c) : l.getD n ' ' = c := by
  rw [List.getD_eq_getD_get?, h]
  rfl

theorem neighborConflictC_false_agrees {cw : Crossword} {a : Assignment}
    {v : Variable} {w : Word} :
    ∀ ns : List Variable, neighborConflictC cw a v w ns = some false →
      ∀ n ∈ ns, ∀ nw, assocLookup a n = some nw →
        ∀ o1 o2, cw.overlaps v n = some (o1, o2) →
          nw.getD o2 ' ' = w.getD o1 ' ' := by
  intro ns
  induction ns with
  | nil =>
    intro _ n hn
    exact absurd hn (by simp)
  | cons m rest ih =>
    intro hres n hn nw hlook o1 o2 hov
    rcases hlm : assocLookup a m with _ | nw0
    · have hres2 : neighborConflictC cw a v w rest = some false := by
        rw [show neighborConflictC cw a v w (m :: rest)
            = neighborConflictC cw a v w rest from by
          simp only [neighborConflictC, hlm]] at hres
        exact hres
      rcases List.mem_cons.1 hn with he | he
      · rw [he] at hlook
        rw [hlm] at hlook
        exact absurd hlook (by simp)
      · exact ih hres2 n he nw hlook o1 o2 hov
    · rcases hom : cw.overlaps v m with _ | ⟨p1, p2⟩
      · rw [show neighborConflictC cw a v w (m :: rest) = none from by
          simp only [neighborConflictC, hlm, hom]] at hres
        exact absurd hres (by simp)
      · rcases hg2 : nw0.get? p2 with _ | c2
        · rw [show neighborConflictC cw a v w (m :: rest) = none from by
            simp only [neighborConflictC, hlm, hom, hg2]] at hres
          exact absurd hres (by simp)
        · rcases hg1 : w.get? p1 with _ | c1
          · rw [show neighborConflictC cw a v w (m :: rest) = none from by
              simp only [neighborConflictC, hlm, hom, hg2, hg1]] at hres
            exact absurd hres (by simp)
          · by_cases hcc : c2 = c1
            · have hres2 : neighborConflictC cw a v w rest = some false := by
                rw [show neighborConflictC cw a v w (m :: rest)
                    = neighborConflictC cw a v w rest from by
                  simp only [neighborConflictC, hlm, hom, hg2, hg1]
                  rw [if_neg (not_not_intro hcc)]] at hres
                exact hres
              rcases List.mem_cons.1 hn with he | he
              · rw [he] at hlook hov
                rw [hlm] at hlook
                injection hlook with hnw
                rw [hom] at hov
                injection hov with hpr
                injection hpr with hq1 hq2
                rw [← hnw, ← hq1, ← hq2]
                rw [getD_eq_of_get?_some hg2, getD_eq_of_get?_some hg1]
                exact hcc
              · exact ih hres2 n he nw hlook o1 o2 hov
            · rw [show neighborConflictC cw a v w (m :: rest) = some true from by
                simp only [neighborConflictC, hlm, hom, hg2, hg1]
                rw [if_pos hcc]] at hres
              exact absurd hres (by simp)

theorem neighborConflictC_true_conflict {cw : Crossword} {a : Assignment}
    {v : Variable} {w : Word} :
    ∀ ns : List Variable, neighborConflictC cw a v w ns = some true →
      ∃ n ∈ ns, ∃ nw, assocLookup a n = some nw ∧
        ∃ o1 o2, cw.overlaps v n = some (o1, o2) ∧
          ¬ nw.getD o2 ' ' = w.getD o1 ' ' := by
  intro ns
  induction ns with
  | nil =>
    intro h
    exact absurd h (by simp [neighborConflictC])
  | cons m rest ih =>
    intro hres
    rcases hlm : assocLookup a m with _ | nw0
    · have hres2 : neighborConflictC cw a v w rest = some true := by
        rw [show neighborConflictC cw a v w (m :: rest)
            = neighborConflictC cw a v w rest from by
          simp only [neighborConflictC, hlm]] at hres
        exact hres
      obtain ⟨n, hn, hrest⟩ := ih hres2
      exact ⟨n, List.mem_cons_of_mem _ hn, hrest⟩
    · rcases hom : cw.overlaps v m with _ | ⟨p1, p2⟩
      · rw [show neighborConflictC cw a v w (m :: rest) = none from by
          simp only [neighborConflictC, hlm, hom]] at hres
        exact absurd hres (by simp)
      · rcases hg2 : nw0.get? p2 with _ | c2
        · rw [show neighborConflictC cw a v w (m :: rest) = none from by
            simp only [neighborConflictC, hlm, hom, hg2]] at hres
          exact absurd hres (by simp)
        · rcases hg1 : w.get? p1 with _ | c1
          · rw [show neighborConflictC cw a v w (m :: rest) = none from by
              simp only [neighborConflictC, hlm, hom, hg2, hg1]] at hres
            exact absurd hres (by simp)
          · by_cases hcc : c2 = c1
            · have hres2 : neighborConflictC cw a v w rest = some true := by
                rw [show neighborConflictC cw a v w (m :: rest)
                    = neighborConflictC cw a v w rest from by
                  simp only [neighborConflictC, hlm, hom, hg2, hg1]
                  rw [if_neg (not_not_intro hcc)]] at hres
                exact hres
              obtain ⟨n, hn, hrest⟩ := ih hres2
              exact ⟨n, List.mem_cons_of_mem _ hn, hrest⟩
            · refine ⟨m, List.mem_cons_self _ _, nw0, hlm, p1, p2, hom, ?_⟩
              rw [getD_eq_of_get?_some hg2, getD_eq_of_get?_some hg1]
              exact hcc

theorem consistentAuxC_true_spec {cw : Crossword} {a : Assignment} :
    ∀ (l : List (Variable × Word)) (used : List Word),
      consistentAuxC cw a l used = some true →
      ((l.map Prod.snd).Nodup ∧
       (∀ w ∈ l.map Prod.snd, ¬ w ∈ used) ∧
       (∀ p ∈ l, (p.2 : Word).length = (p.1 : Variable).length) ∧
       (∀ p ∈ l, ∀ n ∈ neighbors cw (p.1 : Variable), ∀ nw,
         assocLookup a n = some nw → ∀ o1 o2,
           cw.overlaps (p.1 : Variable) n = some (o1, o2) →
             nw.getD o2 ' ' = (p.2 : Word).getD o1 ' ')) := by
  intro l
  induction l with
  | nil =>
    intro used _
    exact ⟨by simp, by simp, by simp, by simp⟩
  | cons p rest ih =>
    intro used hres
    obtain ⟨v, w⟩ := p
    by_cases h1 : w ∈ used
    · rw [show consistentAuxC cw a ((v, w) :: rest) used = some false from by
        simp only [consistentAuxC]
        rw [if_pos h1]] at hres
      exact absurd hres (by simp)
    · by_cases h2 : ¬ w.length = v.length
      · rw [show consistentAuxC cw a ((v, w) :: rest) used = some false from by
          simp only [consistentAuxC]
          rw [if_neg h1, if_pos h2]] at hres
        exact absurd hres (by simp)
      · rcases hnb : neighborConflictC cw a v w (neighbors cw v) with _ | b
        · rw [show consistentAuxC cw a ((v, w) :: rest) used = none from by
            simp only [consistentAuxC]
            rw [if_neg h1, if_neg h2, hnb]] at hres
          exact absurd hres (by simp)
        · cases b with
          | true =>
            rw [show consistentAuxC cw a ((v, w) :: rest) used = some false from by
              simp only [consistentAuxC]
              rw [if_neg h1, if_neg h2, hnb]] at hres
            exact absurd hres (by simp)
          | false =>
            have hres2 : consistentAuxC cw a rest (w :: used) = some true := by
              rw [show consistentAuxC cw a ((v, w) :: rest) used
                  = consistentAuxC cw a rest (w :: used) from by
                simp only [consistentAuxC]
                rw [if_neg h1, if_neg h2, hnb]] at hres
              exact hres
            obtain ⟨hnd, hused, hlen, hnbr⟩ := ih (w :: used) hres2
            refine ⟨?_, ?_, ?_, ?_⟩
            · simp only [List.map_cons, List.nodup_cons]
              exact ⟨fun hw => hused w hw (List.mem_cons_self w used), hnd⟩
            · intro x hx
              simp only [List.map_cons, List.mem_cons] at hx
              rcases hx with hx | hx
              · subst hx
                exact h1
              · intro hu
                exact hused x hx (List.mem_cons_of_mem w hu)
            · intro q hq
              rcases List.mem_cons.1 hq with hq | hq
              · subst hq
                exact not_not.1 h2
              · exact hlen q hq
            · intro q hq n hn nw hlook o1 o2 hov
              rcases List.mem_cons.1 hq with hq | hq
              · subst hq
                exact neighborConflictC_false_agrees (neighbors cw v) hnb
                  n hn nw hlook o1 o2 hov
              · exact hnbr q hq n hn nw hlook o1 o2 hov

theorem consistentAuxC_ne_false {cw : Crossword} {a : Assignment}
    (hspec : specConsistentAssignment cw a) :
    ∀ (l : List (Variable × Word)) (used : List Word), l.Sublist a →
      (∀ w ∈ l.map Prod.snd, ¬ w ∈ used) →
      ¬ consistentAuxC cw a l used = some false := by
  intro l
  induction l with
  | nil =>
    intro used _ _ h
    exact absurd h (by simp [consistentAuxC])
  | cons p rest ih =>
    intro used hsub hused hres
    obtain ⟨v, w⟩ := p
    have hmem : (v, w) ∈ a := hsub.subset (List.mem_cons_self _ _)
    have h1 : ¬ w ∈ used := hused w (by simp)
    have h2 : ¬ ¬ w.length = v.length := not_not_intro (hspec.2.1 (v, w) hmem)
    rcases hnb : neighborConflictC cw a v w (neighbors cw v) with _ | b
    · rw [show consistentAuxC cw a ((v, w) :: rest) used = none from by
        simp only [consistentAuxC]
        rw [if_neg h1, if_neg h2, hnb]] at hres
      exact absurd hres (by simp)
    · cases b with
      | true =>
        obtain ⟨n, hn, nw, hlook, o1, o2, hov, hne⟩ :=
          neighborConflictC_true_conflict (neighbors cw v) hnb
        exact hne (hspec.2.2 (v, w) hmem n hn nw hlook o1 o2 hov).symm
      | false =>
        have hres2 : consistentAuxC cw a rest (w :: used) = some false := by
          rw [show consistentAuxC cw a ((v, w) :: rest) used
              = consistentAuxC cw a rest (w :: used) from by
            simp only [consistentAuxC]
            rw [if_neg h1, if_neg h2, hnb]] at hres
          exact hres
        refine ih (w :: used) (List.sublist_of_cons_sublist hsub) ?_ hres2
        intro w2 hw2 hmem2
        rcases List.mem_cons.1 hmem2 with he | he
        · have hsubv : List.Sublist (((v, w) :: rest).map Prod.snd)
              (a.map Prod.snd) := hsub.map Prod.snd
          have hnd := List.Nodup.sublist hsubv hspec.1
          simp only [List.map_cons, List.nodup_cons] at hnd
          rw [he] at hw2
          exact hnd.1 hw2
        · have hw2c : w2 ∈ List.map Prod.snd ((v, w) :: rest) := by
            simp only [List.map_cons, List.mem_cons]
            exact Or.inr hw2
          exact hused w2 hw2c he

/-- C8, counterexample: the claim requires `consistent` to return `False` on
every assignment containing a wrong-length word, but on the assignment
C ↦ "pz", B ↦ "ab" over the model `cwCE` the source raises an IndexError
instead of returning: item C passes its own checks, reaches its assigned
neighbor B, and evaluates `neighbor_value[overlap[1]]` — `"ab"[2]` — before
B's own length check ever runs (generate.py line 203).  In the crash-aware
embedding the call crashes (`none`) rather than returning `False`, although
B's word has the wrong length for its slot. -/
theorem consistent_crash_counterexample :
    consistentC cwCE [(varC, ['p', 'z']), (varB, ['a', 'b'])] = none ∧
    ¬ (['a', 'b'] : Word).length = varB.length := by
  exact ⟨by decide, by decide⟩

/-- C8 (amended): `consistent` misclassifies no assignment it returns on —
it returns `True` only on assignments free of the three violations (a
repeated word, a wrong-length word, two assigned neighboring slots
disagreeing at their overlap offsets) and `False` only when a violation is
present; under the Model invariant that overlap offsets are positions inside
their slots, every violation-free assignment over the model's slots is
reported consistent, the empty assignment in particular.  On a violating
assignment, however, the call may raise an IndexError instead of returning
`False` (see the counterexample above). -/
theorem consistentC_classification :
    (∀ (cw : Crossword) (a : Assignment), consistentC cw a = some true →
      specConsistentAssignment cw a) ∧
    (∀ (cw : Crossword) (a : Assignment), consistentC cw a = some false →
      ¬ specConsistentAssignment cw a) ∧
    (∀ (cw : Crossword) (a : Assignment),
      (∀ u ∈ cw.vars, ∀ z ∈ cw.vars, overlapBoundsAt cw u z = true) →
      (∀ k ∈ keysOf a, k ∈ cw.vars) →
      specConsistentAssignment cw a → consistentC cw a = some true) ∧
    (∀ cw : Crossword, consistentC cw ([] : Assignment) = some true) := by
  refine ⟨?_, ?_, ?_, fun _ => rfl⟩
  · intro cw a h
    obtain ⟨hnd, -, hlen, hnbr⟩ := consistentAuxC_true_spec a [] h
    exact ⟨hnd, hlen, fun p hp n hn nw hlook o1 o2 hov =>
      (hnbr p hp n hn nw hlook o1 o2 hov).symm⟩
  · intro cw a h hspec
    exact consistentAuxC_ne_false hspec a [] (List.Sublist.refl a) (by simp) h
  · intro cw a hbnd hkeys hspec
    obtain ⟨b, hb⟩ := consistentC_some hbnd hkeys hspec.2.1
    cases b with
    | true => exact hb
    | false =>
      exact absurd hb
        (consistentAuxC_ne_false hspec a [] (List.Sublist.refl a) (by simp))

/-- Witness for `consistentC_classification` at concrete inputs: the bounds
invariant and key coverage hold for the model `cwCE` and its solution
assignment `solCE`, the call returns `True` on it, and the spec-side
consistency predicate holds for it. -/
theorem consistentC_classification_witness :
    (∀ u ∈ cwCE.vars, ∀ z ∈ cwCE.vars, overlapBoundsAt cwCE u z = true) ∧
    (∀ k ∈ keysOf solCE, k ∈ cwCE.vars) ∧
    consistentC cwCE solCE = some true ∧
    specConsistentAssignment cwCE solCE :=
  ⟨by decide, by decide,
   consistentC_classification.2.2.1 cwCE solCE (by decide) (by decide)
     (consistentC_classification.1 cwCE solCE (by decide)),
   consistentC_classification.1 cwCE solCE (by decide)⟩

end AC
